import Mathlib

/-! HashingAlgorithm: the open-addressing hash table of `htable.c`.

A shallow embedding of `src/htable.c` (hash, step, insert, search, statistics
report) and of the prime search of `src/asgn1.c`, and the properties of these
routines.

Modelling conventions.

* A C string is the list of its character codes before the terminating NUL
  (`"a"` is `[97]`); `strcmp(x, y) == 0` is equality of the lists.
* `unsigned int` is a natural number reduced modulo `2^32` where the source can
  wrap (the accumulator of `htable_word_to_int`).  Slot indices and steps are
  below `2 * capacity`, and `capacity` is a C `int`, so index arithmetic never
  wraps and is written without the reduction.
* The `int` counters `freqs[i]`, `stats[i]`, `num_keys` are natural numbers
  without overflow: overflowing one of them is undefined in C and needs `2^31`
  insertions of a single key.
* In the statistics report the `int` products `100 * i` and
  `capacity * percent_full` are reduced to 32-bit two's complement (`wrap_int`)
  and the `int` divisions truncate towards zero, as the compiled program
  computes them.  The loop counter `i` is a natural number: it stays in the
  `int` range for every `num_stats` below `INT_MAX`.
* In `is_prime` the product `i * i` is checked against `INT_MAX`: a call that
  would overflow it has no result.
* The `double` values of the statistics report are exact rationals.
* The three heap arrays are lists of length `capacity`; `keys[i] == NULL` is
  `none`.
* A function whose C execution divides by zero has no result: it returns
  `none`.  Loops are unrolled by structural recursion on a fuel argument that
  each caller sets to the loop's own iteration bound; running out of fuel is
  `none` as well, and is proved not to happen.
-/

namespace HTable

/-- The two collision-resolution strategies, `hashing_t` of `htable.h`. -/
inductive hashing_t where
  | LINEAR_P
  | DOUBLE_H
deriving DecidableEq, Repr

/-- A key: the character codes of a C string. -/
abbrev Word := List Nat

/-- The table record, `struct htablerec`. -/
structure htablerec where
  capacity : Nat
  num_keys : Nat
  keys : List (Option Word)
  freqs : List Nat
  stats : List Nat
  method : hashing_t
deriving DecidableEq, Repr

/-- The `while` loop of `htable_word_to_int`: `result = *word++ + 31 * result`
in `unsigned int` arithmetic. -/
def word_to_int_loop : Word → Nat → Nat
  | [], result => result
  | c :: word, result => word_to_int_loop word ((c + 31 * result) % 4294967296)

/-- The hash `htable_word_to_int`: the loop started at `result = 0`. -/
def htable_word_to_int (word : Word) : Nat :=
  word_to_int_loop word 0

/-- The step `htable_step`: `1 + (i_key % (h->capacity - 1))`; no result when the
divisor `capacity - 1` is zero.  (At capacity 0 the C divisor is `UINT_MAX`, but
both callers have divided by the capacity before they get here.) -/
def htable_step (h : htablerec) (i_key : Nat) : Option Nat :=
  if h.capacity - 1 = 0 then none else some (1 + i_key % (h.capacity - 1))

/-- The constructor `htable_new`: every slot empty, every counter zero. -/
def htable_new (capacity : Nat) (hash_method : hashing_t) : htablerec :=
  { capacity := capacity
    num_keys := 0
    keys := List.replicate capacity none
    freqs := List.replicate capacity 0
    stats := List.replicate capacity 0
    method := hash_method }

/-- The read `h->keys[index]`. -/
def key_at (h : htablerec) (index : Nat) : Option Word :=
  h.keys.getD index none

/-- The read `h->freqs[index]`. -/
def freq_at (h : htablerec) (index : Nat) : Nat :=
  h.freqs.getD index 0

/-- The read `h->stats[index]`. -/
def stat_at (h : htablerec) (index : Nat) : Nat :=
  h.stats.getD index 0

/-- The loop condition shared by insert and search:
`h->keys[index] != NULL && strcmp(h->keys[index], str) != 0`. -/
def busy (h : htablerec) (str : Word) (index : Nat) : Prop :=
  key_at h index ≠ none ∧ key_at h index ≠ some str

instance (h : htablerec) (str : Word) (index : Nat) : Decidable (busy h str index) := by
  unfold busy
  exact inferInstance

/-- How the probing loop of `htable_insert` ends. -/
inductive probe_t where
  /-- The `return 0` inside the loop. -/
  | full
  /-- The loop condition became false at this index, after this many collisions. -/
  | stopped (index collisions : Nat)
  /-- The fuel ran out. -/
  | exhausted
deriving DecidableEq, Repr

/-- The probing loop of `htable_insert` (the `while` of the last branch). -/
def insert_loop : Nat → htablerec → Word → Nat → Nat → Nat → probe_t
  | 0, _, _, _, _, _ => probe_t.exhausted
  | fuel + 1, h, str, step, index, collisions =>
    if busy h str index then
      if collisions + 1 ≥ h.capacity then probe_t.full
      else insert_loop fuel h str step ((index + step) % h.capacity) (collisions + 1)
    else probe_t.stopped index collisions

/-- The write `h->freqs[index]++`. -/
def incr_freq (h : htablerec) (index : Nat) : htablerec :=
  { h with freqs := h.freqs.set index (freq_at h index + 1) }

/-- The insertion `htable_insert`: the table after the call and the returned
value; `none` when the call has no result. -/
def htable_insert (h : htablerec) (str : Word) : Option (htablerec × Nat) :=
  if h.capacity = 0 then none
  else
    let str_to_idx := htable_word_to_int str
    let index := str_to_idx % h.capacity
    match (if h.method = hashing_t.DOUBLE_H then htable_step h str_to_idx else some 1) with
    | none => none
    | some step =>
      if key_at h index = none then
        some ({ incr_freq h index with
                  keys := h.keys.set index (some str)
                  num_keys := h.num_keys + 1 }, 1)
      else if key_at h index = some str then
        some (incr_freq h index, freq_at h index + 1)
      else
        match insert_loop h.capacity h str step index 0 with
        | probe_t.exhausted => none
        | probe_t.full => some (h, 0)
        | probe_t.stopped index collisions =>
          if key_at h index = none then
            some ({ incr_freq h index with
                      keys := h.keys.set index (some str)
                      stats := h.stats.set h.num_keys (stat_at h h.num_keys + collisions)
                      num_keys := h.num_keys + 1 }, 1)
          else
            some (incr_freq h index, freq_at h index + 1)

/-- The probing loop of `htable_search`; its value is what the function
returns, `none` when the fuel ran out. -/
def search_loop : Nat → htablerec → Word → Nat → Nat → Nat → Option Nat
  | 0, _, _, _, _, _ => none
  | fuel + 1, h, str, step, index, collisions =>
    if busy h str index then
      if collisions = h.capacity then some 0
      else search_loop fuel h str step ((index + step) % h.capacity) (collisions + 1)
    else some (freq_at h index)

/-- The lookup `htable_search`: the step is `htable_step` of the start index,
whatever the method. -/
def htable_search (h : htablerec) (str : Word) : Option Nat :=
  if h.capacity = 0 then none
  else
    let index := htable_word_to_int str % h.capacity
    match htable_step h index with
    | none => none
    | some step => search_loop (h.capacity + 1) h str step index 0

/-- The tables a caller can hold: `htable_new` at a positive capacity, then any
number of `htable_insert` calls that returned. -/
inductive Reachable : htablerec → Prop where
  | start (capacity : Nat) (hash_method : hashing_t) (hc : 0 < capacity) :
      Reachable (htable_new capacity hash_method)
  | step (h : htablerec) (str : Word) (h' : htablerec) (r : Nat) :
      Reachable h → htable_insert h str = some (h', r) → Reachable h'

/-- A run of `htable_insert` calls, first word first: the final table and the
returned values in call order. -/
def insert_all : htablerec → List Word → Option (htablerec × List Nat)
  | h, [] => some (h, [])
  | h, str :: rest =>
    match htable_insert h str with
    | none => none
    | some (h', r) =>
      match insert_all h' rest with
      | none => none
      | some (h'', rs) => some (h'', r :: rs)

/-! ## Statistics report -/

/-- The value an `int` expression has after overflow: the reduction of the exact
result to 32-bit two's complement. -/
def wrap_int (x : Int) : Int :=
  (x + 2147483648) % 4294967296 - 2147483648

/-- One line written by `htable_print_stats`: a line of fixed text, or a data
row with the five values handed to the `fprintf` of `print_stats_line`.  The two
`double` quotients are kept as exact rationals. -/
inductive line_t where
  | text (s : String)
  | row (percent_full current_entries : Int) (at_home average : ℚ) (max_collisions : Nat)
deriving DecidableEq

/-- The `for` loop of `print_stats_line`: `n` iterations are left, the next one
reads `h->stats[i]`; the value is the final `at_home`, `max_collisions` and
`average_collisions`. -/
def stats_loop (h : htablerec) : Nat → Nat → Nat → Nat → Nat → Nat × Nat × Nat
  | 0, _, at_home, max_collisions, average_collisions =>
    (at_home, max_collisions, average_collisions)
  | n + 1, i, at_home, max_collisions, average_collisions =>
    stats_loop h n (i + 1)
      (if stat_at h i = 0 then at_home + 1 else at_home)
      (if stat_at h i > max_collisions then stat_at h i else max_collisions)
      (average_collisions + stat_at h i)

/-- The `int` expression `h->capacity * percent_full / 100` of
`print_stats_line`: the product wraps, the division truncates. -/
def current_entries_of (h : htablerec) (percent_full : Int) : Int :=
  (wrap_int ((h.capacity : Int) * percent_full)).tdiv 100

/-- The routine `print_stats_line`: the row it prints, `none` when it prints
nothing. -/
def print_stats_line (h : htablerec) (percent_full : Int) : Option line_t :=
  let current_entries := current_entries_of h percent_full
  if current_entries > 0 ∧ current_entries ≤ (h.num_keys : Int) then
    match stats_loop h current_entries.toNat 0 0 0 0 with
    | (at_home, max_collisions, average_collisions) =>
      some (line_t.row percent_full current_entries
        (((at_home * 100 : Nat) : ℚ) / (current_entries : ℚ))
        ((average_collisions : ℚ) / (current_entries : ℚ))
        max_collisions)
  else none

/-- The `int` argument `100 * i / num_stats` that `htable_print_stats` hands to
`print_stats_line`: the product wraps, the division truncates.  The loop calls
it for `1 ≤ i ≤ num_stats` only, so the divisor is not zero. -/
def percent_full_of (num_stats i : Nat) : Int :=
  (wrap_int (100 * (i : Int))).tdiv (num_stats : Int)

/-- The `for` loop of `htable_print_stats`: `n` iterations are left, the next
one is for `i`; the row of this call, if it prints one, comes before the rows
of the later calls. -/
def print_stats_rows (h : htablerec) (num_stats : Nat) : Nat → Nat → List line_t
  | 0, _ => []
  | n + 1, i =>
    (print_stats_line h (percent_full_of num_stats i)).toList
      ++ print_stats_rows h num_stats n (i + 1)

/-- The four `fprintf` calls before the loop of `htable_print_stats`. -/
def stats_header (h : htablerec) : List line_t :=
  [line_t.text (String.append "\n" (String.append
      (if h.method = hashing_t.LINEAR_P then "Linear Probing" else "Double Hashing") "\n\n")),
   line_t.text "Percent   Current    Percent    Average      Maximum\n",
   line_t.text " Full     Entries    At Home   Collisions   Collisions\n",
   line_t.text "------------------------------------------------------\n"]

/-- The `fprintf` after the loop of `htable_print_stats`. -/
def stats_footer : List line_t :=
  [line_t.text "------------------------------------------------------\n\n"]

/-- The report `htable_print_stats`: the lines written to the stream, in order. -/
def htable_print_stats (h : htablerec) (num_stats : Nat) : List line_t :=
  stats_header h ++ print_stats_rows h num_stats num_stats 1 ++ stats_footer

/-! ## Prime table sizes (`asgn1.c`) -/

/-- The `for` loop of `is_prime` on an `n` above 1: `i * i` beyond `INT_MAX`
overflows and leaves the call without a result. -/
def is_prime_loop : Nat → Nat → Nat → Option Nat
  | 0, _, _ => none
  | fuel + 1, n, i =>
    if i * i > 2147483647 then none
    else if i * i ≤ n then
      if n % i = 0 then some 0 else is_prime_loop fuel n (i + 1)
    else some 1

/-- The test `is_prime`: 0 for `n <= 1`, else the loop from `i = 2`. -/
def is_prime (n : Int) : Option Nat :=
  if n ≤ 1 then some 0 else is_prime_loop n.toNat n.toNat 2

/-- The `while` loop of `next_prime`. -/
def next_prime_loop : Nat → Int → Option Int
  | 0, _ => none
  | fuel + 1, candidate =>
    match is_prime candidate with
    | none => none
    | some 0 => next_prime_loop fuel (candidate + 1)
    | some _ => some candidate

/-- The search `next_prime`, with fuel for `2 * |n| + 4` candidates. -/
def next_prime (n : Int) : Option Int :=
  next_prime_loop (2 * n.natAbs + 4) n

/-! ## Probe sequences -/

/-- The step `htable_insert` probes with: `htable_step` of the raw hash under
`DOUBLE_H`, and 1 under `LINEAR_P`. -/
def insert_step (h : htablerec) (str : Word) : Nat :=
  if h.method = hashing_t.DOUBLE_H then 1 + htable_word_to_int str % (h.capacity - 1) else 1

/-- The index `htable_insert` examines after `t` collisions. -/
def probe_index (h : htablerec) (str : Word) (t : Nat) : Nat :=
  (htable_word_to_int str % h.capacity + t * insert_step h str) % h.capacity

/-- The table after `str` was put into the empty slot `i` with `t` collisions. -/
def place (h : htablerec) (str : Word) (i t : Nat) : htablerec :=
  { h with
      keys := h.keys.set i (some str)
      freqs := h.freqs.set i (freq_at h i + 1)
      stats := h.stats.set h.num_keys (stat_at h h.num_keys + t)
      num_keys := h.num_keys + 1 }

/-- The key is held by some slot. -/
def stored (h : htablerec) (str : Word) : Prop :=
  ∃ i, i < h.capacity ∧ key_at h i = some str

instance (h : htablerec) (str : Word) : Decidable (stored h str) := by
  unfold stored
  exact inferInstance

/-- The first slot holding the key, if any. -/
def slot_of (h : htablerec) (str : Word) : Option Nat :=
  (List.range h.capacity).find? (fun i => decide (key_at h i = some str))

/-- The frequency stored for the key, 0 when no slot holds it. -/
def stored_freq (h : htablerec) (str : Word) : Nat :=
  match slot_of h str with
  | some i => freq_at h i
  | none => 0

/-- The number of calls of a run that inserted `str` and returned non-zero. -/
def successes (str : Word) : List Word → List Nat → Nat
  | w :: ws, r :: rs => (if w = str ∧ 1 ≤ r then 1 else 0) + successes str ws rs
  | _, _ => 0

/-- What a call of `htable_insert` that returned did: it put the key into the
first probe index that was not busy, which was empty (`placed`) or held the key
already (`bumped`), or it found all `capacity` probe indices busy (`gave_up`). -/
inductive Outcome (h : htablerec) (str : Word) : htablerec → Nat → Prop where
  | placed (t : Nat) : t < h.capacity →
      (∀ u, u < t → busy h str (probe_index h str u)) →
      key_at h (probe_index h str t) = none →
      Outcome h str (place h str (probe_index h str t) t) 1
  | bumped (t : Nat) : t < h.capacity →
      (∀ u, u < t → busy h str (probe_index h str u)) →
      key_at h (probe_index h str t) = some str →
      Outcome h str (incr_freq h (probe_index h str t)) (freq_at h (probe_index h str t) + 1)
  | gave_up : (∀ t, t < h.capacity → busy h str (probe_index h str t)) →
      Outcome h str h 0

/-- The representation invariant of the table. -/
structure Inv (h : htablerec) : Prop where
  cap_pos : 0 < h.capacity
  keys_len : h.keys.length = h.capacity
  freqs_len : h.freqs.length = h.capacity
  stats_len : h.stats.length = h.capacity
  count : h.num_keys = h.keys.countP (fun k => k.isSome)
  freq_zero : ∀ i, i < h.capacity → (key_at h i = none ↔ freq_at h i = 0)
  stats_zero : ∀ i, h.num_keys ≤ i → stat_at h i = 0
  double : h.method = hashing_t.DOUBLE_H → 0 < h.num_keys → 2 ≤ h.capacity
  path : ∀ i str, i < h.capacity → key_at h i = some str →
    ∃ t, t < h.capacity ∧ probe_index h str t = i ∧
      ∀ u, u < t → busy h str (probe_index h str u)

/-- The number of occupied slots: the indices below `capacity` whose key is not
`NULL`. -/
def occupied_slots (h : htablerec) : Nat :=
  ((List.range h.capacity).filter (fun i => decide (key_at h i ≠ none))).length

/-- The polynomial of the specification: the sum over `i` of
`c_i * 31 ^ (n - 1 - i)` for a word of `n` character codes. -/
def poly_sum (w : Word) : Nat :=
  ((List.range w.length).map (fun i => w.getD i 0 * 31 ^ (w.length - 1 - i))).sum

/-- The first `current_entries` collision entries, in insertion order. -/
def snapshot_entries (h : htablerec) (current_entries : Nat) : List Nat :=
  (List.range current_entries).map (fun i => stat_at h i)

/-- The snapshot of the specification for the `i`-th of `num_stats` requests,
in exact arithmetic: a row exactly when `0 < current_entries ≤ num_keys`,
reporting the percentage of zero entries, the average entry and the maximum
entry. -/
def snapshot_row (h : htablerec) (num_stats i : Nat) : Option line_t :=
  let percent_full := 100 * i / num_stats
  let current_entries := h.capacity * percent_full / 100
  if 0 < current_entries ∧ current_entries ≤ h.num_keys then
    some (line_t.row (percent_full : Int) (current_entries : Int)
      ((((snapshot_entries h current_entries).count 0 * 100 : Nat) : ℚ) / (current_entries : ℚ))
      (((snapshot_entries h current_entries).sum : ℚ) / (current_entries : ℚ))
      ((snapshot_entries h current_entries).foldr max 0))
  else none

/-! ## Sample tables -/

/-- The table after `"a"` was inserted into an empty `LINEAR_P` table of capacity 5. -/
def sample_a : htablerec :=
  { capacity := 5
    num_keys := 1
    keys := [none, none, some [97], none, none]
    freqs := [0, 0, 1, 0, 0]
    stats := [0, 0, 0, 0, 0]
    method := hashing_t.LINEAR_P }

/-- The table `sample_a` after `"f"`, which collides with `"a"`, was inserted. -/
def sample_af : htablerec :=
  { capacity := 5
    num_keys := 2
    keys := [none, none, some [97], some [102], none]
    freqs := [0, 0, 1, 1, 0]
    stats := [0, 1, 0, 0, 0]
    method := hashing_t.LINEAR_P }

/-- The table `sample_af` after `"k"`, which collides with both, was inserted. -/
def sample_afk : htablerec :=
  { capacity := 5
    num_keys := 3
    keys := [none, none, some [97], some [102], some [107]]
    freqs := [0, 0, 1, 1, 1]
    stats := [0, 1, 2, 0, 0]
    method := hashing_t.LINEAR_P }

/-- A full `LINEAR_P` table of capacity 2 holding `"a"` and `"b"`. -/
def sample_full : htablerec :=
  { capacity := 2
    num_keys := 2
    keys := [some [98], some [97]]
    freqs := [1, 1]
    stats := [0, 0]
    method := hashing_t.LINEAR_P }

/-! ## List facts -/

theorem getD_set_same {α : Type} (l : List α) (i : Nat) (a d : α) (hi : i < l.length) :
    (l.set i a).getD i d = a := by
  simp [List.getD_eq_getElem?_getD, List.getElem?_set, hi]

theorem getD_set_other {α : Type} (l : List α) (i j : Nat) (a d : α) (hij : i ≠ j) :
    (l.set i a).getD j d = l.getD j d := by
  simp [List.getD_eq_getElem?_getD, List.getElem?_set_ne hij]

theorem set_getD_same {α : Type} (l : List α) (i : Nat) (d : α) :
    l.set i (l.getD i d) = l := by
  by_cases hi : i < l.length
  · apply List.ext_getElem?
    intro j
    by_cases hij : i = j
    · subst hij
      simp [List.getElem?_set, hi, List.getD_eq_getElem?_getD]
    · simp [List.getElem?_set_ne hij]
  · exact List.set_eq_of_length_le (by omega)

theorem getD_replicate_lt {α : Type} (n i : Nat) (a d : α) (hi : i < n) :
    (List.replicate n a).getD i d = a := by
  simp [List.getD_eq_getElem?_getD, List.getElem?_replicate, hi]

theorem countP_set_fill {α : Type} (p : α → Bool) (l : List α) (i : Nat) (a : α)
    (hi : i < l.length) (hold : p (l.get ⟨i, hi⟩) = false) (hnew : p a = true) :
    (l.set i a).countP p = l.countP p + 1 := by
  rw [List.countP_set p l i a hi]
  simp only [List.get_eq_getElem] at hold
  simp [hold, hnew]

/-! ## The probing loop of insert -/

theorem probe_advance (home step t n : Nat) :
    ((home + t * step) % n + step) % n = (home + (t + 1) * step) % n := by
  rw [Nat.mod_add_mod]
  congr 1
  ring

theorem probe_index_zero (h : htablerec) (str : Word) :
    probe_index h str 0 = htable_word_to_int str % h.capacity := by
  simp [probe_index, Nat.mod_mod]

theorem probe_index_succ (h : htablerec) (str : Word) (t : Nat) :
    (probe_index h str t + insert_step h str) % h.capacity = probe_index h str (t + 1) := by
  unfold probe_index
  exact probe_advance _ _ _ _

theorem probe_index_lt (h : htablerec) (str : Word) (t : Nat) (hc : 0 < h.capacity) :
    probe_index h str t < h.capacity :=
  Nat.mod_lt _ hc

/-- The loop started after `c` collisions at the `c`-th probe index: it does not
run out of fuel, it stops at the first index that is not busy, and it gives up
only when every remaining probe index is busy. -/
theorem insert_loop_spec (h : htablerec) (str : Word) :
    ∀ fuel c, c < h.capacity → h.capacity ≤ c + fuel →
      match insert_loop fuel h str (insert_step h str) (probe_index h str c) c with
      | probe_t.exhausted => False
      | probe_t.full => ∀ t, c ≤ t → t < h.capacity → busy h str (probe_index h str t)
      | probe_t.stopped i t =>
          c ≤ t ∧ t < h.capacity ∧ i = probe_index h str t ∧ ¬ busy h str i ∧
            ∀ u, c ≤ u → u < t → busy h str (probe_index h str u) := by
  intro fuel
  induction fuel with
  | zero => intro c h1 h2; omega
  | succ fuel ih =>
    intro c h1 h2
    unfold insert_loop
    by_cases hb : busy h str (probe_index h str c)
    · rw [if_pos hb]
      by_cases hfull : c + 1 ≥ h.capacity
      · rw [if_pos hfull]
        intro t ht1 ht2
        have : t = c := by omega
        subst this
        exact hb
      · rw [if_neg hfull, probe_index_succ]
        have hrec := ih (c + 1) (by omega) (by omega)
        revert hrec
        cases insert_loop fuel h str (insert_step h str) (probe_index h str (c + 1)) (c + 1) with
        | exhausted => exact id
        | full =>
          intro hrec t ht1 ht2
          by_cases htc : t = c
          · subst htc; exact hb
          · exact hrec t (by omega) ht2
        | stopped i t =>
          rintro ⟨k1, k2, k3, k4, k5⟩
          refine ⟨by omega, k2, k3, k4, ?_⟩
          intro u hu1 hu2
          by_cases huc : u = c
          · subst huc; exact hb
          · exact k5 u (by omega) hu2
    · rw [if_neg hb]
      exact ⟨le_refl _, h1, rfl, hb, fun u hu1 hu2 => by omega⟩

/-! ## What insert does -/

theorem insert_step_eq (h : htablerec) (str : Word)
    (hd : h.method = hashing_t.DOUBLE_H → 2 ≤ h.capacity) :
    (if h.method = hashing_t.DOUBLE_H then htable_step h (htable_word_to_int str) else some 1)
      = some (insert_step h str) := by
  unfold insert_step htable_step
  by_cases hm : h.method = hashing_t.DOUBLE_H
  · have := hd hm
    have h1 : ¬ (h.capacity - 1 = 0) := by omega
    simp [hm, h1]
  · simp [hm]

theorem place_zero (h : htablerec) (str : Word) (i : Nat) :
    ({ incr_freq h i with keys := h.keys.set i (some str), num_keys := h.num_keys + 1 } : htablerec)
      = place h str i 0 := by
  have e : h.stats.set h.num_keys (stat_at h h.num_keys + 0) = h.stats :=
    set_getD_same h.stats h.num_keys 0
  unfold place incr_freq
  rw [e]

theorem place_loop (h : htablerec) (str : Word) (i t : Nat) :
    ({ incr_freq h i with
        keys := h.keys.set i (some str)
        stats := h.stats.set h.num_keys (stat_at h h.num_keys + t)
        num_keys := h.num_keys + 1 } : htablerec)
      = place h str i t := by
  simp [place, incr_freq]

/-- On a table of positive capacity (at least 2 under `DOUBLE_H`) the call
returns, and what it returns is one of the three outcomes. -/
theorem insert_outcome (h : htablerec) (str : Word) (hc : 0 < h.capacity)
    (hd : h.method = hashing_t.DOUBLE_H → 2 ≤ h.capacity) :
    ∃ h' r, htable_insert h str = some (h', r) ∧ Outcome h str h' r := by
  unfold htable_insert
  rw [if_neg (by omega)]
  dsimp only
  rw [insert_step_eq h str hd]
  dsimp only
  rw [← probe_index_zero h str]
  by_cases h0 : key_at h (probe_index h str 0) = none
  · rw [if_pos h0, place_zero]
    exact ⟨_, _, rfl, Outcome.placed 0 hc (fun u hu => by omega) h0⟩
  · rw [if_neg h0]
    by_cases h1 : key_at h (probe_index h str 0) = some str
    · rw [if_pos h1]
      exact ⟨_, _, rfl, Outcome.bumped 0 hc (fun u hu => by omega) h1⟩
    · rw [if_neg h1]
      have hspec := insert_loop_spec h str h.capacity 0 hc (by omega)
      revert hspec
      cases insert_loop h.capacity h str (insert_step h str) (probe_index h str 0) 0 with
      | exhausted => intro hspec; exact hspec.elim
      | full =>
        intro hspec
        exact ⟨_, _, rfl, Outcome.gave_up (fun t ht => hspec t (Nat.zero_le _) ht)⟩
      | stopped i t =>
        rintro ⟨-, k2, k3, k4, k5⟩
        subst k3
        simp only []
        by_cases he : key_at h (probe_index h str t) = none
        · rw [if_pos he, place_loop]
          exact ⟨_, _, rfl, Outcome.placed t k2 (fun u hu => k5 u (Nat.zero_le _) hu) he⟩
        · rw [if_neg he]
          have hs : key_at h (probe_index h str t) = some str := by
            by_contra hne
            exact k4 ⟨he, hne⟩
          exact ⟨_, _, rfl, Outcome.bumped t k2 (fun u hu => k5 u (Nat.zero_le _) hu) hs⟩

/-- A call of `htable_insert` that returned ran on a table with a defined step. -/
theorem insert_defined (h : htablerec) (str : Word) (h' : htablerec) (r : Nat)
    (hi : htable_insert h str = some (h', r)) :
    0 < h.capacity ∧ (h.method = hashing_t.DOUBLE_H → 2 ≤ h.capacity) := by
  unfold htable_insert at hi
  by_cases hc : h.capacity = 0
  · simp [hc] at hi
  · refine ⟨by omega, fun hm => ?_⟩
    by_contra hlt
    have h1 : h.capacity - 1 = 0 := by omega
    simp [hc, hm, htable_step, h1] at hi

theorem insert_outcome_of_eq (h : htablerec) (str : Word) (h' : htablerec) (r : Nat)
    (hi : htable_insert h str = some (h', r)) : Outcome h str h' r := by
  obtain ⟨hc, hd⟩ := insert_defined h str h' r hi
  obtain ⟨h2, r2, e, ho⟩ := insert_outcome h str hc hd
  rw [hi] at e
  cases e
  exact ho

/-! ## Reads after a write -/

theorem key_at_place (h : htablerec) (str : Word) (i t j : Nat) (hi : i < h.keys.length) :
    key_at (place h str i t) j = if j = i then some str else key_at h j := by
  unfold key_at place
  by_cases hji : j = i
  · subst hji
    rw [if_pos rfl]
    exact getD_set_same _ _ _ _ hi
  · rw [if_neg hji]
    exact getD_set_other _ _ _ _ _ (fun e => hji e.symm)

theorem freq_at_place (h : htablerec) (str : Word) (i t j : Nat) (hi : i < h.freqs.length) :
    freq_at (place h str i t) j = if j = i then freq_at h i + 1 else freq_at h j := by
  unfold place
  by_cases hji : j = i
  · subst hji
    rw [if_pos rfl]
    exact getD_set_same _ _ _ _ hi
  · rw [if_neg hji]
    exact getD_set_other _ _ _ _ _ (fun e => hji e.symm)

theorem stat_at_place (h : htablerec) (str : Word) (i t j : Nat)
    (hn : h.num_keys < h.stats.length) :
    stat_at (place h str i t) j
      = if j = h.num_keys then stat_at h h.num_keys + t else stat_at h j := by
  unfold place
  by_cases hjn : j = h.num_keys
  · subst hjn
    rw [if_pos rfl]
    exact getD_set_same _ _ _ _ hn
  · rw [if_neg hjn]
    exact getD_set_other _ _ _ _ _ (fun e => hjn e.symm)

theorem stat_at_place_other (h : htablerec) (str : Word) (i t j : Nat)
    (hjn : j ≠ h.num_keys) : stat_at (place h str i t) j = stat_at h j :=
  getD_set_other _ _ _ _ _ (fun e => hjn e.symm)

theorem freq_at_incr (h : htablerec) (i j : Nat) (hi : i < h.freqs.length) :
    freq_at (incr_freq h i) j = if j = i then freq_at h i + 1 else freq_at h j := by
  unfold incr_freq
  by_cases hji : j = i
  · subst hji
    rw [if_pos rfl]
    exact getD_set_same _ _ _ _ hi
  · rw [if_neg hji]
    exact getD_set_other _ _ _ _ _ (fun e => hji e.symm)

theorem probe_index_congr (h h' : htablerec) (hc : h'.capacity = h.capacity)
    (hm : h'.method = h.method) (str : Word) (t : Nat) :
    probe_index h' str t = probe_index h str t := by
  unfold probe_index insert_step
  rw [hc, hm]

theorem busy_place_other (h : htablerec) (str w : Word) (i t j : Nat)
    (hji : j ≠ i) : busy (place h str i t) w j ↔ busy h w j := by
  have e : key_at (place h str i t) j = key_at h j :=
    getD_set_other _ _ _ _ _ (fun e => hji e.symm)
  unfold busy
  rw [e]

theorem key_get_of_key_at (h : htablerec) (i : Nat) (hi : i < h.keys.length) :
    h.keys.get ⟨i, hi⟩ = key_at h i := by
  unfold key_at
  simp [List.getD_eq_getElem?_getD, List.getElem?_eq_getElem hi]

/-- A table with an empty slot holds fewer keys than it has slots. -/
theorem count_lt_of_empty (l : List (Option Word)) (i : Nat) (hi : i < l.length)
    (he : l.get ⟨i, hi⟩ = none) : l.countP (fun k => k.isSome) < l.length := by
  have hle := List.countP_le_length (fun k : Option Word => k.isSome) (l := l)
  rcases Nat.lt_or_ge (l.countP (fun k => k.isSome)) l.length with hlt | hge
  · exact hlt
  · have heq : l.countP (fun k => k.isSome) = l.length := le_antisymm hle hge
    have hall := (List.countP_eq_length (p := fun k : Option Word => k.isSome) (l := l)).1 heq
    have := hall (l.get ⟨i, hi⟩) (List.get_mem l i hi)
    rw [he] at this
    simp at this

/-! ## The invariant holds on every reachable table -/

theorem inv_new (capacity : Nat) (hash_method : hashing_t) (hc : 0 < capacity) :
    Inv (htable_new capacity hash_method) := by
  have hk : ∀ i, key_at (htable_new capacity hash_method) i = none := by
    intro i
    simp [key_at, htable_new, List.getD_eq_getElem?_getD, List.getElem?_replicate]
    split <;> rfl
  have hf : ∀ i, freq_at (htable_new capacity hash_method) i = 0 := by
    intro i
    simp [freq_at, htable_new, List.getD_eq_getElem?_getD, List.getElem?_replicate]
    split <;> simp
  refine ⟨hc, by simp [htable_new], by simp [htable_new], by simp [htable_new], ?_, ?_, ?_, ?_, ?_⟩
  · simp [htable_new, List.countP_replicate]
  · intro i _
    simp [hk i, hf i]
  · intro i _
    simp [stat_at, htable_new, List.getD_eq_getElem?_getD, List.getElem?_replicate]
    split <;> simp
  · intro _ hn
    simp [htable_new] at hn
  · intro i str _ hs
    rw [hk i] at hs
    cases hs

/-- In a table satisfying the invariant, the first probe index of a stored key
that is not busy is the slot that holds the key. -/
theorem first_free_is_slot (h : htablerec) (hinv : Inv h) (str : Word) (i t : Nat)
    (hi : i < h.capacity) (hs : key_at h i = some str)
    (hbefore : ∀ u, u < t → busy h str (probe_index h str u))
    (hfree : ¬ busy h str (probe_index h str t)) : probe_index h str t = i := by
  obtain ⟨t0, -, h2, h3⟩ := hinv.path i str hi hs
  rcases Nat.lt_trichotomy t t0 with hlt | heq | hgt
  · exact (hfree (h3 t hlt)).elim
  · rw [heq]; exact h2
  · have hb := hbefore t0 hgt
    rw [h2] at hb
    exact (hb.2 hs).elim

theorem inv_place (h : htablerec) (hinv : Inv h) (str : Word) (t : Nat)
    (ht : t < h.capacity)
    (hd : h.method = hashing_t.DOUBLE_H → 2 ≤ h.capacity)
    (hbefore : ∀ u, u < t → busy h str (probe_index h str u))
    (hempty : key_at h (probe_index h str t) = none) :
    Inv (place h str (probe_index h str t) t) := by
  have hi : probe_index h str t < h.capacity := probe_index_lt h str t hinv.cap_pos
  have hik : probe_index h str t < h.keys.length := by rw [hinv.keys_len]; exact hi
  have hif : probe_index h str t < h.freqs.length := by rw [hinv.freqs_len]; exact hi
  have hget : h.keys.get ⟨probe_index h str t, hik⟩ = none := by
    rw [key_get_of_key_at]; exact hempty
  have hpi : ∀ w u, probe_index (place h str (probe_index h str t) t) w u = probe_index h w u :=
    fun w u => probe_index_congr h _ rfl rfl w u
  have hkeep : ∀ w u, busy h w (probe_index h w u) →
      busy (place h str (probe_index h str t) t) w (probe_index h w u) := by
    intro w u hb
    have hne : probe_index h w u ≠ probe_index h str t := by
      intro e
      rw [e] at hb
      exact hb.1 hempty
    exact (busy_place_other h str w _ t _ hne).2 hb
  refine ⟨hinv.cap_pos, ?_, ?_, ?_, ?_, ?_, ?_, ?_, ?_⟩
  · simp [place, hinv.keys_len]
  · simp [place, hinv.freqs_len]
  · simp [place, hinv.stats_len]
  · show h.num_keys + 1 = (h.keys.set (probe_index h str t) (some str)).countP (fun k => k.isSome)
    rw [countP_set_fill _ h.keys _ _ hik (by rw [hget]; rfl) rfl, ← hinv.count]
  · intro j hj
    show key_at (place h str (probe_index h str t) t) j = none
      ↔ freq_at (place h str (probe_index h str t) t) j = 0
    rw [key_at_place _ _ _ _ _ hik, freq_at_place _ _ _ _ _ hif]
    by_cases hji : j = probe_index h str t
    · simp [hji]
    · simp only [if_neg hji]
      exact hinv.freq_zero j hj
  · intro j hj
    have hj2 : h.num_keys + 1 ≤ j := hj
    rw [stat_at_place_other _ _ _ _ _ (by omega)]
    exact hinv.stats_zero j (by omega)
  · intro hm _
    exact hd hm
  · intro j w hj hs
    have hj2 : j < h.capacity := hj
    rw [key_at_place _ _ _ _ _ hik] at hs
    by_cases hji : j = probe_index h str t
    · rw [if_pos hji] at hs
      cases hs
      refine ⟨t, ?_, ?_, ?_⟩
      · exact ht
      · rw [hpi]; exact hji.symm
      · intro u hu
        rw [hpi]
        exact hkeep str u (hbefore u hu)
    · rw [if_neg hji] at hs
      obtain ⟨t0, h1, h2, h3⟩ := hinv.path j w hj2 hs
      refine ⟨t0, h1, ?_, ?_⟩
      · rw [hpi]; exact h2
      · intro u hu
        rw [hpi]
        exact hkeep w u (h3 u hu)

theorem inv_incr (h : htablerec) (hinv : Inv h) (str : Word) (i : Nat)
    (hi : i < h.capacity) (hs : key_at h i = some str) : Inv (incr_freq h i) := by
  have hif : i < h.freqs.length := by rw [hinv.freqs_len]; exact hi
  refine ⟨hinv.cap_pos, hinv.keys_len, ?_, hinv.stats_len, hinv.count, ?_, hinv.stats_zero,
    hinv.double, ?_⟩
  · simp [incr_freq, hinv.freqs_len]
  · intro j hj
    show key_at h j = none ↔ freq_at (incr_freq h i) j = 0
    rw [freq_at_incr _ _ _ hif]
    by_cases hji : j = i
    · subst hji
      simp [hs]
    · simp only [if_neg hji]
      exact hinv.freq_zero j hj
  · intro j w hj hw
    obtain ⟨t0, h1, h2, h3⟩ := hinv.path j w hj hw
    exact ⟨t0, h1, (probe_index_congr h _ rfl rfl w t0).trans h2, fun u hu => h3 u hu⟩

theorem inv_outcome (h : htablerec) (hinv : Inv h) (str : Word) (h' : htablerec) (r : Nat)
    (hd : h.method = hashing_t.DOUBLE_H → 2 ≤ h.capacity)
    (ho : Outcome h str h' r) : Inv h' := by
  cases ho with
  | placed t ht hbefore hempty => exact inv_place h hinv str t ht hd hbefore hempty
  | bumped t ht hbefore hs =>
    exact inv_incr h hinv str _ (probe_index_lt h str t hinv.cap_pos) hs
  | gave_up _ => exact hinv

theorem inv_insert (h : htablerec) (hinv : Inv h) (str : Word) (h' : htablerec) (r : Nat)
    (hi : htable_insert h str = some (h', r)) : Inv h' :=
  inv_outcome h hinv str h' r (insert_defined h str h' r hi).2
    (insert_outcome_of_eq h str h' r hi)

theorem inv_reachable (h : htablerec) (hr : Reachable h) : Inv h := by
  induction hr with
  | start capacity hash_method hc => exact inv_new capacity hash_method hc
  | step h str h' r _ hi ih => exact inv_insert h ih str h' r hi

/-- Under the invariant no key sits in two slots. -/
theorem inv_unique (h : htablerec) (hinv : Inv h) (str : Word) (i j : Nat)
    (hi : i < h.capacity) (hj : j < h.capacity)
    (hki : key_at h i = some str) (hkj : key_at h j = some str) : i = j := by
  obtain ⟨t, -, h2, h3⟩ := hinv.path i str hi hki
  have hfree : ¬ busy h str (probe_index h str t) := by
    rw [h2]
    exact fun hb => hb.2 hki
  have := first_free_is_slot h hinv str j t hj hkj h3 hfree
  omega

/-- A call that placed the key found it in no slot. -/
theorem not_stored_of_empty (h : htablerec) (hinv : Inv h) (str : Word) (t : Nat)
    (hbefore : ∀ u, u < t → busy h str (probe_index h str u))
    (hempty : key_at h (probe_index h str t) = none) : ¬ stored h str := by
  rintro ⟨i, hi, hs⟩
  have hfree : ¬ busy h str (probe_index h str t) := fun hb => hb.1 hempty
  have e := first_free_is_slot h hinv str i t hi hs hbefore hfree
  rw [e, hs] at hempty
  cases hempty

/-- A call that gave up found the key in no slot. -/
theorem not_stored_of_gave_up (h : htablerec) (hinv : Inv h) (str : Word)
    (hall : ∀ t, t < h.capacity → busy h str (probe_index h str t)) : ¬ stored h str := by
  rintro ⟨i, hi, hs⟩
  obtain ⟨t, h1, h2, -⟩ := hinv.path i str hi hs
  have hb := hall t h1
  rw [h2] at hb
  exact hb.2 hs

/-! ## The stored frequency -/

theorem slot_of_some (h : htablerec) (str : Word) (i : Nat) (hs : slot_of h str = some i) :
    i < h.capacity ∧ key_at h i = some str := by
  unfold slot_of at hs
  have hmem := List.mem_of_find?_eq_some hs
  have hp := List.find?_some hs
  exact ⟨List.mem_range.1 hmem, of_decide_eq_true hp⟩

theorem slot_of_none (h : htablerec) (str : Word) (hs : slot_of h str = none) :
    ¬ stored h str := by
  unfold slot_of at hs
  rw [List.find?_eq_none] at hs
  rintro ⟨i, hi, hk⟩
  exact hs i (List.mem_range.2 hi) (decide_eq_true hk)

theorem stored_freq_of_slot (h : htablerec) (hinv : Inv h) (str : Word) (i : Nat)
    (hi : i < h.capacity) (hk : key_at h i = some str) : stored_freq h str = freq_at h i := by
  unfold stored_freq
  cases hs : slot_of h str with
  | none => exact (slot_of_none h str hs ⟨i, hi, hk⟩).elim
  | some j =>
    obtain ⟨hj, hkj⟩ := slot_of_some h str j hs
    rw [inv_unique h hinv str i j hi hj hk hkj]

theorem stored_freq_of_absent (h : htablerec) (str : Word) (hn : ¬ stored h str) :
    stored_freq h str = 0 := by
  unfold stored_freq
  cases hs : slot_of h str with
  | none => rfl
  | some j => exact (hn ⟨j, slot_of_some h str j hs⟩).elim

/-! ## Insert is determined by the first probe index that is not busy -/

theorem insert_eq_place (h : htablerec) (str : Word) (t : Nat) (ht : t < h.capacity)
    (hd : h.method = hashing_t.DOUBLE_H → 2 ≤ h.capacity)
    (hbefore : ∀ u, u < t → busy h str (probe_index h str u))
    (hempty : key_at h (probe_index h str t) = none) :
    htable_insert h str = some (place h str (probe_index h str t) t, 1) := by
  obtain ⟨h', r, e, ho⟩ := insert_outcome h str (by omega) hd
  rw [e]
  cases ho with
  | placed t1 _ hb1 he1 =>
    rcases Nat.lt_trichotomy t1 t with hlt | heq | hgt
    · exact ((hbefore t1 hlt).1 he1).elim
    · rw [heq]
    · exact ((hb1 t hgt).1 hempty).elim
  | bumped t1 _ hb1 hs1 =>
    rcases Nat.lt_trichotomy t1 t with hlt | heq | hgt
    · exact ((hbefore t1 hlt).2 hs1).elim
    · rw [heq, hempty] at hs1; cases hs1
    · exact ((hb1 t hgt).1 hempty).elim
  | gave_up hall => exact ((hall t ht).1 hempty).elim

theorem insert_eq_incr (h : htablerec) (str : Word) (t : Nat) (ht : t < h.capacity)
    (hd : h.method = hashing_t.DOUBLE_H → 2 ≤ h.capacity)
    (hbefore : ∀ u, u < t → busy h str (probe_index h str u))
    (hs : key_at h (probe_index h str t) = some str) :
    htable_insert h str
      = some (incr_freq h (probe_index h str t), freq_at h (probe_index h str t) + 1) := by
  obtain ⟨h', r, e, ho⟩ := insert_outcome h str (by omega) hd
  rw [e]
  cases ho with
  | placed t1 _ hb1 he1 =>
    rcases Nat.lt_trichotomy t1 t with hlt | heq | hgt
    · exact ((hbefore t1 hlt).1 he1).elim
    · rw [heq, hs] at he1; cases he1
    · exact ((hb1 t hgt).2 hs).elim
  | bumped t1 _ hb1 hs1 =>
    rcases Nat.lt_trichotomy t1 t with hlt | heq | hgt
    · exact ((hbefore t1 hlt).2 hs1).elim
    · rw [heq]
    · exact ((hb1 t hgt).2 hs).elim
  | gave_up hall => exact ((hall t ht).2 hs).elim

theorem insert_eq_full (h : htablerec) (str : Word) (hc : 0 < h.capacity)
    (hd : h.method = hashing_t.DOUBLE_H → 2 ≤ h.capacity)
    (hall : ∀ t, t < h.capacity → busy h str (probe_index h str t)) :
    htable_insert h str = some (h, 0) := by
  obtain ⟨h', r, e, ho⟩ := insert_outcome h str hc hd
  rw [e]
  cases ho with
  | placed t1 ht1 _ he1 => exact ((hall t1 ht1).1 he1).elim
  | bumped t1 ht1 _ hs1 => exact ((hall t1 ht1).2 hs1).elim
  | gave_up _ => rfl

/-! ## A step coprime to the capacity visits every slot -/

theorem probe_injective (n home step : Nat) (hco : Nat.Coprime n step)
    (t u : Nat) (ht : t < n) (hu : u < n)
    (e : (home + t * step) % n = (home + u * step) % n) : t = u := by
  have h1 : Nat.ModEq n (home + t * step) (home + u * step) := e
  have h2 : Nat.ModEq n (t * step) (u * step) := Nat.ModEq.add_left_cancel' home h1
  have h3 : Nat.ModEq n t u := Nat.ModEq.cancel_right_of_coprime hco h2
  have h4 : t % n = u % n := h3
  rwa [Nat.mod_eq_of_lt ht, Nat.mod_eq_of_lt hu] at h4

theorem probe_surjective (n home step : Nat) (hn : 0 < n) (hco : Nat.Coprime n step)
    (i : Nat) (hi : i < n) : ∃ t, t < n ∧ (home + t * step) % n = i := by
  let f : Fin n → Fin n := fun t => ⟨(home + t.val * step) % n, Nat.mod_lt _ hn⟩
  have hinj : Function.Injective f := by
    intro t u e
    have e2 : (home + t.val * step) % n = (home + u.val * step) % n :=
      congrArg Fin.val e
    exact Fin.ext (probe_injective n home step hco t.val u.val t.isLt u.isLt e2)
  have hsur : Function.Surjective f := Finite.injective_iff_surjective.1 hinj
  obtain ⟨t, ht⟩ := hsur ⟨i, hi⟩
  exact ⟨t.val, t.isLt, congrArg Fin.val ht⟩

theorem insert_step_coprime (h : htablerec) (str : Word)
    (hm : h.method = hashing_t.LINEAR_P ∨ Nat.Prime h.capacity) :
    Nat.Coprime h.capacity (insert_step h str) := by
  unfold insert_step
  by_cases hd : h.method = hashing_t.DOUBLE_H
  · rw [if_pos hd]
    rcases hm with hl | hp
    · rw [hl] at hd; cases hd
    · have h2 := hp.two_le
      have hlt : htable_word_to_int str % (h.capacity - 1) < h.capacity - 1 :=
        Nat.mod_lt _ (by omega)
      apply (Nat.Prime.coprime_iff_not_dvd hp).2
      intro hdvd
      have := Nat.le_of_dvd (by omega) hdvd
      omega
  · rw [if_neg hd]
    exact Nat.coprime_one_right _

/-- With a step coprime to the capacity, a call that gave up saw every slot. -/
theorem all_busy_of_gave_up (h : htablerec) (str : Word) (hc : 0 < h.capacity)
    (hm : h.method = hashing_t.LINEAR_P ∨ Nat.Prime h.capacity)
    (hall : ∀ t, t < h.capacity → busy h str (probe_index h str t)) :
    ∀ i, i < h.capacity → busy h str i := by
  intro i hi
  obtain ⟨t, ht, e⟩ := probe_surjective h.capacity (htable_word_to_int str % h.capacity)
    (insert_step h str) hc (insert_step_coprime h str hm) i hi
  have := hall t ht
  unfold probe_index at this
  rwa [e] at this

/-! ## How one call changes the stored frequency of a key -/

theorem stored_freq_outcome (h : htablerec) (hinv : Inv h) (w str : Word) (h' : htablerec)
    (r : Nat) (hd : h.method = hashing_t.DOUBLE_H → 2 ≤ h.capacity)
    (ho : Outcome h w h' r) :
    stored_freq h' str = stored_freq h str + (if w = str ∧ 1 ≤ r then 1 else 0) := by
  have hinv' : Inv h' := inv_outcome h hinv w h' r hd ho
  cases ho with
  | placed t ht hbefore hempty =>
    have hi : probe_index h w t < h.capacity := probe_index_lt h w t hinv.cap_pos
    have hik : probe_index h w t < h.keys.length := by rw [hinv.keys_len]; exact hi
    have hif : probe_index h w t < h.freqs.length := by rw [hinv.freqs_len]; exact hi
    by_cases hws : w = str
    · subst hws
      rw [if_pos ⟨rfl, le_refl 1⟩,
        stored_freq_of_absent h w (not_stored_of_empty h hinv w t hbefore hempty),
        stored_freq_of_slot _ hinv' w (probe_index h w t) hi
          (by rw [key_at_place _ _ _ _ _ hik, if_pos rfl]),
        freq_at_place _ _ _ _ _ hif, if_pos rfl,
        (hinv.freq_zero _ hi).1 hempty]
    · rw [if_neg (fun hh => hws hh.1), Nat.add_zero]
      by_cases hst : stored h str
      · obtain ⟨j, hj, hkj⟩ := hst
        have hji : j ≠ probe_index h w t := by
          intro e
          rw [e, hempty] at hkj
          cases hkj
        rw [stored_freq_of_slot h hinv str j hj hkj,
          stored_freq_of_slot _ hinv' str j hj
            (by rw [key_at_place _ _ _ _ _ hik, if_neg hji]; exact hkj),
          freq_at_place _ _ _ _ _ hif, if_neg hji]
      · rw [stored_freq_of_absent h str hst]
        apply stored_freq_of_absent
        rintro ⟨j, hj, hkj⟩
        rw [key_at_place _ _ _ _ _ hik] at hkj
        by_cases hji : j = probe_index h w t
        · rw [if_pos hji] at hkj
          exact hws (Option.some.inj hkj)
        · rw [if_neg hji] at hkj
          exact hst ⟨j, hj, hkj⟩
  | bumped t ht hbefore hs =>
    have hi : probe_index h w t < h.capacity := probe_index_lt h w t hinv.cap_pos
    have hif : probe_index h w t < h.freqs.length := by rw [hinv.freqs_len]; exact hi
    by_cases hws : w = str
    · subst hws
      rw [if_pos ⟨rfl, Nat.le_add_left 1 _⟩,
        stored_freq_of_slot h hinv w _ hi hs,
        stored_freq_of_slot _ hinv' w (probe_index h w t) hi hs,
        freq_at_incr _ _ _ hif, if_pos rfl]
    · rw [if_neg (fun hh => hws hh.1), Nat.add_zero]
      by_cases hst : stored h str
      · obtain ⟨j, hj, hkj⟩ := hst
        have hji : j ≠ probe_index h w t := by
          intro e
          rw [e, hs] at hkj
          exact hws (Option.some.inj hkj)
        rw [stored_freq_of_slot h hinv str j hj hkj,
          stored_freq_of_slot _ hinv' str j hj hkj,
          freq_at_incr _ _ _ hif, if_neg hji]
      · rw [stored_freq_of_absent h str hst]
        exact stored_freq_of_absent _ str hst
  | gave_up _ =>
    rw [if_neg (fun hh => by omega), Nat.add_zero]

theorem stored_freq_insert (h : htablerec) (hinv : Inv h) (w str : Word) (h' : htablerec)
    (r : Nat) (hi : htable_insert h w = some (h', r)) :
    stored_freq h' str = stored_freq h str + (if w = str ∧ 1 ≤ r then 1 else 0) :=
  stored_freq_outcome h hinv w str h' r (insert_defined h w h' r hi).2
    (insert_outcome_of_eq h w h' r hi)

theorem stored_freq_new (capacity : Nat) (hash_method : hashing_t) (str : Word) :
    stored_freq (htable_new capacity hash_method) str = 0 := by
  apply stored_freq_of_absent
  rintro ⟨i, -, hk⟩
  have : key_at (htable_new capacity hash_method) i = none := by
    simp [key_at, htable_new, List.getD_eq_getElem?_getD, List.getElem?_replicate]
    split <;> rfl
  rw [this] at hk
  cases hk

/-- Over a run, the stored frequency of a key grows by the number of calls that
inserted it and returned non-zero. -/
theorem stored_freq_run (str : Word) :
    ∀ (ws : List Word) (h0 : htablerec) (h : htablerec) (rs : List Nat), Inv h0 →
      insert_all h0 ws = some (h, rs) →
      stored_freq h str = stored_freq h0 str + successes str ws rs := by
  intro ws
  induction ws with
  | nil =>
    intro h0 h rs _ hrun
    simp only [insert_all, Option.some.injEq, Prod.mk.injEq] at hrun
    obtain ⟨e1, e2⟩ := hrun
    subst e1 e2
    simp [successes]
  | cons w ws ih =>
    intro h0 h rs hinv hrun
    unfold insert_all at hrun
    cases hi : htable_insert h0 w with
    | none => rw [hi] at hrun; cases hrun
    | some p =>
      obtain ⟨h1, r⟩ := p
      rw [hi] at hrun
      simp only [] at hrun
      cases hrest : insert_all h1 ws with
      | none => rw [hrest] at hrun; cases hrun
      | some q =>
        obtain ⟨h2, rs2⟩ := q
        rw [hrest] at hrun
        simp only [Option.some.injEq, Prod.mk.injEq] at hrun
        obtain ⟨e1, e2⟩ := hrun
        subst e1 e2
        rw [ih h1 h2 rs2 (inv_insert h0 hinv w h1 r hi) hrest,
          stored_freq_insert h0 hinv w str h1 r hi]
        simp only [successes]
        omega

/-! ## The probing loop of search -/

theorem search_loop_absent (h : htablerec) (str : Word) (step : Nat) (hc : 0 < h.capacity)
    (hfz : ∀ i, i < h.capacity → key_at h i = none → freq_at h i = 0)
    (hab : ¬ stored h str) :
    ∀ fuel index c, index < h.capacity → c ≤ h.capacity → h.capacity + 1 ≤ c + fuel →
      search_loop fuel h str step index c = some 0 := by
  intro fuel
  induction fuel with
  | zero => intro index c _ h1 h2; omega
  | succ fuel ih =>
    intro index c hi h1 h2
    unfold search_loop
    by_cases hb : busy h str index
    · rw [if_pos hb]
      by_cases hcap : c = h.capacity
      · rw [if_pos hcap]
      · rw [if_neg hcap]
        exact ih _ (c + 1) (Nat.mod_lt _ hc) (by omega) (by omega)
    · rw [if_neg hb]
      have hnone : key_at h index = none := by
        by_contra hne
        exact hb ⟨hne, fun hs => hab ⟨index, hi, hs⟩⟩
      rw [hfz index hi hnone]

/-! ## Sample tables are reachable -/

theorem sample_a_reachable : Reachable sample_a :=
  Reachable.step (htable_new 5 hashing_t.LINEAR_P) [97] sample_a 1
    (Reachable.start 5 hashing_t.LINEAR_P (by decide)) (by decide)

theorem sample_af_reachable : Reachable sample_af :=
  Reachable.step sample_a [102] sample_af 1 sample_a_reachable (by decide)

theorem sample_full_reachable : Reachable sample_full :=
  Reachable.step _ [98] sample_full 1
    (Reachable.step (htable_new 2 hashing_t.LINEAR_P) [97] _ 1
      (Reachable.start 2 hashing_t.LINEAR_P (by decide)) rfl) (by decide)

/-! ## The claims -/

/-- Claim C1 (the code departs from it): a key that was inserted once, with the
insert returning 1, is searched for and 0 comes back.  Under `LINEAR_P` at
capacity 5, `"f"` collides with `"a"` and is placed one slot further, but the
search steps by `htable_step` of the start index (here 3) and meets an empty
slot first.  Under `DOUBLE_H` at capacity 7, `"p"` collides with `"b"` and is
placed 5 slots further, the step of its raw hash, but the search steps by 1. -/
theorem search_misses_inserted_key :
    (∃ h, insert_all (htable_new 5 hashing_t.LINEAR_P) [[97], [102]] = some (h, [1, 1])
        ∧ htable_search h [102] = some 0)
    ∧ (∃ h, insert_all (htable_new 7 hashing_t.DOUBLE_H) [[98], [112]] = some (h, [1, 1])
        ∧ htable_search h [112] = some 0) :=
  ⟨⟨sample_af, by decide, by decide⟩,
   ⟨{ capacity := 7, num_keys := 2,
      keys := [some [98], none, none, none, none, some [112], none],
      freqs := [1, 0, 0, 0, 0, 1, 0], stats := [0, 1, 0, 0, 0, 0, 0],
      method := hashing_t.DOUBLE_H }, by decide, by decide⟩⟩

/-- Claim C2: on a reachable table, an insert that returns `r ≥ 1` returns the
stored frequency of the key before the call plus one (the frequency counts as 0
when no slot holds the key); after the call the key sits in exactly one slot and
that slot has frequency `r`; and when the table was built by a run of inserts
from `htable_new`, `r` is one more than the number of earlier inserts of the key
that returned non-zero, so the `j`-th successful insert of a key returns `j`. -/
theorem insert_returns_next_frequency (h : htablerec) (str : Word) (h' : htablerec) (r : Nat)
    (hr : Reachable h) (hi : htable_insert h str = some (h', r)) (hpos : 1 ≤ r) :
    r = stored_freq h str + 1
    ∧ (∃ i, i < h'.capacity ∧ key_at h' i = some str ∧ freq_at h' i = r
        ∧ ∀ j, j < h'.capacity → key_at h' j = some str → j = i)
    ∧ (∀ capacity hash_method ws rs, 0 < capacity →
        insert_all (htable_new capacity hash_method) ws = some (h, rs) →
        r = successes str ws rs + 1) := by
  have hinv := inv_reachable h hr
  have hinv' := inv_insert h hinv str h' r hi
  have hstep := stored_freq_insert h hinv str str h' r hi
  rw [if_pos ⟨rfl, hpos⟩] at hstep
  have hout := insert_outcome_of_eq h str h' r hi
  have key : ∃ i, i < h'.capacity ∧ key_at h' i = some str ∧ freq_at h' i = r := by
    cases hout with
    | placed t ht hbefore hempty =>
      have hlt : probe_index h str t < h.capacity := probe_index_lt h str t hinv.cap_pos
      refine ⟨probe_index h str t, hlt, ?_, ?_⟩
      · rw [key_at_place _ _ _ _ _ (by rw [hinv.keys_len]; exact hlt), if_pos rfl]
      · rw [freq_at_place _ _ _ _ _ (by rw [hinv.freqs_len]; exact hlt), if_pos rfl,
          (hinv.freq_zero _ hlt).1 hempty]
    | bumped t ht hbefore hs =>
      have hlt : probe_index h str t < h.capacity := probe_index_lt h str t hinv.cap_pos
      refine ⟨probe_index h str t, hlt, hs, ?_⟩
      rw [freq_at_incr _ _ _ (by rw [hinv.freqs_len]; exact hlt), if_pos rfl]
    | gave_up _ => omega
  obtain ⟨i, hi1, hi2, hi3⟩ := key
  have hr' : r = stored_freq h str + 1 := by
    rw [← hstep, stored_freq_of_slot h' hinv' str i hi1 hi2, hi3]
  refine ⟨hr', ⟨i, hi1, hi2, hi3, fun j hj hkj => inv_unique h' hinv' str j i hj hi1 hkj hi2⟩, ?_⟩
  intro capacity hash_method ws rs hc hrun
  have := stored_freq_run str ws _ h rs (inv_new capacity hash_method hc) hrun
  rw [stored_freq_new, Nat.zero_add] at this
  rw [hr', this]

/-- Claim C2 at a concrete table: `"a"` is inserted a second time into the table
holding `"a"` and `"f"`, and 2 comes back. -/
theorem insert_returns_next_frequency_witness :
    Reachable sample_af ∧ htable_insert sample_af [97] = some (incr_freq sample_af 2, 2)
    ∧ 1 ≤ 2
    ∧ 2 = stored_freq sample_af [97] + 1
    ∧ (∀ capacity hash_method ws rs, 0 < capacity →
        insert_all (htable_new capacity hash_method) ws = some (sample_af, rs) →
        2 = successes [97] ws rs + 1) :=
  have w := insert_returns_next_frequency sample_af [97] (incr_freq sample_af 2) 2
    sample_af_reachable (by decide) (by decide)
  ⟨sample_af_reachable, by decide, by decide, w.1, w.2.2⟩

/-- Claim C3: on a reachable table with `num_keys == capacity`, inserting a key
that no slot holds returns 0 and gives back the very same table: keys, freqs,
stats and num_keys are unchanged. -/
theorem insert_full_table_unchanged (h : htablerec) (str : Word) (hr : Reachable h)
    (hfull : h.num_keys = h.capacity) (hab : ¬ stored h str) :
    htable_insert h str = some (h, 0) := by
  have hinv := inv_reachable h hr
  have hd : h.method = hashing_t.DOUBLE_H → 2 ≤ h.capacity :=
    fun hm => hinv.double hm (by rw [hfull]; exact hinv.cap_pos)
  apply insert_eq_full h str hinv.cap_pos hd
  intro t ht
  have hlt : probe_index h str t < h.capacity := probe_index_lt h str t hinv.cap_pos
  have hlk : probe_index h str t < h.keys.length := by rw [hinv.keys_len]; exact hlt
  constructor
  · intro hnone
    have := count_lt_of_empty h.keys _ hlk (by rw [key_get_of_key_at]; exact hnone)
    rw [← hinv.count, hinv.keys_len, hfull] at this
    omega
  · intro hs
    exact hab ⟨_, hlt, hs⟩

/-- Claim C3 at a concrete table: `"c"` is inserted into the full table of
capacity 2. -/
theorem insert_full_table_unchanged_witness :
    Reachable sample_full ∧ sample_full.num_keys = sample_full.capacity
    ∧ ¬ stored sample_full [99] ∧ htable_insert sample_full [99] = some (sample_full, 0) :=
  have hab : ¬ stored sample_full [99] := by decide
  ⟨sample_full_reachable, rfl, hab,
    insert_full_table_unchanged sample_full [99] sample_full_reachable rfl hab⟩

/-- Claim C4: under `LINEAR_P` at any capacity, and under `DOUBLE_H` at a prime
capacity, an insert on a reachable table returns, and it returns 0 only when
every slot is occupied and no slot holds the key; so when some slot is empty or
the key is stored, the returned value is at least 1. -/
theorem insert_zero_only_when_full (h : htablerec) (str : Word) (hr : Reachable h)
    (hm : h.method = hashing_t.LINEAR_P ∨ Nat.Prime h.capacity) :
    ∃ h' r, htable_insert h str = some (h', r)
      ∧ (r = 0 → (∀ i, i < h.capacity → key_at h i ≠ none) ∧ ¬ stored h str)
      ∧ ((∃ i, i < h.capacity ∧ key_at h i = none) ∨ stored h str → 1 ≤ r) := by
  have hinv := inv_reachable h hr
  have hd : h.method = hashing_t.DOUBLE_H → 2 ≤ h.capacity := by
    intro hdm
    rcases hm with hl | hp
    · rw [hl] at hdm; cases hdm
    · exact hp.two_le
  obtain ⟨h', r, e, ho⟩ := insert_outcome h str hinv.cap_pos hd
  have hzero : r = 0 → (∀ i, i < h.capacity → key_at h i ≠ none) ∧ ¬ stored h str := by
    intro hr0
    cases ho with
    | placed t _ _ _ => cases hr0
    | bumped t _ _ _ => cases hr0
    | gave_up hall =>
      have hbusy := all_busy_of_gave_up h str hinv.cap_pos hm hall
      exact ⟨fun i hi => (hbusy i hi).1, not_stored_of_gave_up h hinv str hall⟩
  refine ⟨h', r, e, hzero, ?_⟩
  intro hor
  by_contra hlt
  have hr0 : r = 0 := by omega
  obtain ⟨hocc, hab⟩ := hzero hr0
  rcases hor with ⟨i, hi, hnone⟩ | hst
  · exact hocc i hi hnone
  · exact hab hst

/-- Claim C4 at a concrete table: `"c"` is inserted into the full `LINEAR_P`
table of capacity 2. -/
theorem insert_zero_only_when_full_witness :
    Reachable sample_full
    ∧ (sample_full.method = hashing_t.LINEAR_P ∨ Nat.Prime sample_full.capacity)
    ∧ ∃ h' r, htable_insert sample_full [99] = some (h', r)
      ∧ (r = 0 → (∀ i, i < sample_full.capacity → key_at sample_full i ≠ none)
          ∧ ¬ stored sample_full [99])
      ∧ ((∃ i, i < sample_full.capacity ∧ key_at sample_full i = none)
          ∨ stored sample_full [99] → 1 ≤ r) :=
  ⟨sample_full_reachable, Or.inl rfl,
    insert_zero_only_when_full sample_full [99] sample_full_reachable (Or.inl rfl)⟩

/-- Claim C5: on a reachable table, inserting a key that slot `i` already holds
returns, and leaves num_keys, the whole stats array, every slot's key and the
frequency of every other slot unchanged; the frequency of slot `i` is the only
thing that changes (it grows by one). -/
theorem reinsert_changes_one_frequency (h : htablerec) (str : Word) (i : Nat)
    (hr : Reachable h) (hi : i < h.capacity) (hs : key_at h i = some str) :
    ∃ h' r, htable_insert h str = some (h', r)
      ∧ h'.num_keys = h.num_keys ∧ h'.stats = h.stats ∧ h'.keys = h.keys
      ∧ h'.capacity = h.capacity ∧ h'.method = h.method
      ∧ (∀ j, j ≠ i → freq_at h' j = freq_at h j)
      ∧ freq_at h' i = freq_at h i + 1 := by
  have hinv := inv_reachable h hr
  have hik : i < h.keys.length := by rw [hinv.keys_len]; exact hi
  have hif : i < h.freqs.length := by rw [hinv.freqs_len]; exact hi
  have hpos : 0 < h.num_keys := by
    rw [hinv.count]
    apply List.countP_pos_iff.2
    refine ⟨h.keys.get ⟨i, hik⟩, List.get_mem _ _ _, ?_⟩
    rw [key_get_of_key_at, hs]
    rfl
  have hd : h.method = hashing_t.DOUBLE_H → 2 ≤ h.capacity := fun hm => hinv.double hm hpos
  obtain ⟨t, ht, hti, hbefore⟩ := hinv.path i str hi hs
  have e := insert_eq_incr h str t ht hd hbefore (by rw [hti]; exact hs)
  rw [hti] at e
  refine ⟨_, _, e, rfl, rfl, rfl, rfl, rfl, ?_, ?_⟩
  · intro j hji
    rw [freq_at_incr _ _ _ hif, if_neg hji]
  · rw [freq_at_incr _ _ _ hif, if_pos rfl]

/-- Claim C5 at a concrete table: `"f"`, held by slot 3, is inserted again. -/
theorem reinsert_changes_one_frequency_witness :
    Reachable sample_af ∧ 3 < sample_af.capacity ∧ key_at sample_af 3 = some [102]
    ∧ ∃ h' r, htable_insert sample_af [102] = some (h', r)
      ∧ h'.num_keys = sample_af.num_keys ∧ h'.stats = sample_af.stats
      ∧ h'.keys = sample_af.keys
      ∧ h'.capacity = sample_af.capacity ∧ h'.method = sample_af.method
      ∧ (∀ j, j ≠ 3 → freq_at h' j = freq_at sample_af j)
      ∧ freq_at h' 3 = freq_at sample_af 3 + 1 :=
  ⟨sample_af_reachable, by decide, by decide,
    reinsert_changes_one_frequency sample_af [102] 3 sample_af_reachable (by decide)
      (by decide)⟩

/-- Claim C6: in a reachable table (either method, any positive capacity) two
different occupied slots never hold the same key. -/
theorem key_in_one_slot (h : htablerec) (i j : Nat) (hr : Reachable h)
    (hi : i < h.capacity) (hj : j < h.capacity) (hij : i ≠ j)
    (hoi : key_at h i ≠ none) (_hoj : key_at h j ≠ none) : key_at h i ≠ key_at h j := by
  intro e
  cases hk : key_at h i with
  | none => exact hoi hk
  | some str =>
    exact hij (inv_unique h (inv_reachable h hr) str i j hi hj hk (by rw [← e]; exact hk))

/-- Claim C6 at a concrete table: slots 2 and 3 of the table holding `"a"` and
`"f"`. -/
theorem key_in_one_slot_witness :
    Reachable sample_af ∧ 2 < sample_af.capacity ∧ 3 < sample_af.capacity ∧ 2 ≠ 3
    ∧ key_at sample_af 2 ≠ none ∧ key_at sample_af 3 ≠ none
    ∧ key_at sample_af 2 ≠ key_at sample_af 3 :=
  ⟨sample_af_reachable, by decide, by decide, by decide, by decide, by decide,
    key_in_one_slot sample_af 2 3 sample_af_reachable (by decide) (by decide) (by decide)
      (by decide) (by decide)⟩

theorem countP_eq_filter_range (l : List (Option Word)) :
    l.countP (fun k => k.isSome)
      = ((List.range l.length).filter (fun i => decide (l.getD i none ≠ none))).length := by
  induction l using List.reverseRecOn with
  | nil => rfl
  | append_singleton l a ih =>
    rw [List.countP_append, List.length_append, List.length_singleton, List.range_succ,
      List.filter_append, List.length_append, ih]
    congr 1
    · congr 1
      apply List.filter_congr
      intro i hi
      have hlt : i < l.length := List.mem_range.1 hi
      simp [List.getD_eq_getElem?_getD, List.getElem?_append_left hlt]
    · cases a <;> simp [List.getD_eq_getElem?_getD]

/-- Claim C7: in a reachable table `num_keys` is the number of occupied slots,
and so it is at most `capacity`. -/
theorem num_keys_counts_occupied (h : htablerec) (hr : Reachable h) :
    h.num_keys = occupied_slots h ∧ h.num_keys ≤ h.capacity := by
  have hinv := inv_reachable h hr
  have e : h.num_keys = occupied_slots h := by
    rw [hinv.count, countP_eq_filter_range, hinv.keys_len]
    rfl
  refine ⟨e, ?_⟩
  rw [hinv.count, ← hinv.keys_len]
  exact List.countP_le_length _

/-- Claim C7 at a concrete table: the table holding `"a"` and `"f"`. -/
theorem num_keys_counts_occupied_witness :
    Reachable sample_af ∧ sample_af.num_keys = occupied_slots sample_af
    ∧ sample_af.num_keys ≤ sample_af.capacity :=
  ⟨sample_af_reachable, num_keys_counts_occupied sample_af sample_af_reachable⟩

/-- Claim C8: whatever an insert does (new placement, frequency increment or
table-full failure), every collision entry `stats[i]` with `i` below the
`num_keys` of before the call is unchanged; this holds on every table, reachable
or not. -/
theorem stats_history_preserved (h : htablerec) (str : Word) (h' : htablerec) (r i : Nat)
    (hi : htable_insert h str = some (h', r)) (hlt : i < h.num_keys) :
    stat_at h' i = stat_at h i := by
  cases insert_outcome_of_eq h str h' r hi with
  | placed t _ _ _ => exact stat_at_place_other h str _ t i (by omega)
  | bumped t _ _ _ => rfl
  | gave_up _ => rfl

/-- Claim C8 at a concrete table: `"k"` is placed after two collisions, and
`stats[1]` keeps its value. -/
theorem stats_history_preserved_witness :
    htable_insert sample_af [107] = some (sample_afk, 1) ∧ 1 < sample_af.num_keys
    ∧ stat_at sample_afk 1 = stat_at sample_af 1 :=
  ⟨by decide, by decide,
    stats_history_preserved sample_af [107] sample_afk 1 1 (by decide) (by decide)⟩

/-- Claim C9 as stated fails: at capacity 1 `htable_search` computes
`htable_step`, whose divisor `capacity - 1` is zero, and returns nothing, though
the table is reachable and holds no key. -/
theorem search_absent_capacity_one :
    Reachable (htable_new 1 hashing_t.DOUBLE_H)
    ∧ ¬ stored (htable_new 1 hashing_t.DOUBLE_H) [97]
    ∧ htable_search (htable_new 1 hashing_t.DOUBLE_H) [97] ≠ some 0 := by
  refine ⟨Reachable.start 1 hashing_t.DOUBLE_H (by decide), ?_, by decide⟩
  rintro ⟨i, hi, hk⟩
  have hi2 : i < 1 := hi
  interval_cases i
  simp [key_at, htable_new] at hk

/-- Claim C9, amended: on a reachable table of capacity at least 2, searching a
key that no slot holds returns 0, also when the table is full. -/
theorem search_absent_returns_zero (h : htablerec) (str : Word) (hr : Reachable h)
    (hc : 2 ≤ h.capacity) (hab : ¬ stored h str) : htable_search h str = some 0 := by
  have hinv := inv_reachable h hr
  unfold htable_search htable_step
  rw [if_neg (by omega)]
  dsimp only
  rw [if_neg (by omega)]
  dsimp only
  exact search_loop_absent h str _ hinv.cap_pos (fun i hi hn => (hinv.freq_zero i hi).1 hn) hab
    _ _ 0 (Nat.mod_lt _ hinv.cap_pos) (Nat.zero_le _) (by omega)

/-- Claim C9, amended, at a concrete table: `"c"` is searched in the full table
of capacity 2. -/
theorem search_absent_returns_zero_witness :
    Reachable sample_full ∧ 2 ≤ sample_full.capacity ∧ ¬ stored sample_full [99]
    ∧ htable_search sample_full [99] = some 0 :=
  have hab : ¬ stored sample_full [99] := by decide
  ⟨sample_full_reachable, by decide, hab,
    search_absent_returns_zero sample_full [99] sample_full_reachable (by decide) hab⟩

theorem probe_index_linear (h : htablerec) (str : Word) (t : Nat)
    (hm : h.method = hashing_t.LINEAR_P) :
    probe_index h str t = (htable_word_to_int str % h.capacity + t) % h.capacity := by
  unfold probe_index insert_step
  rw [hm, if_neg (by decide), Nat.mul_one]

theorem succ_mod_ne (n x : Nat) (hn : 2 ≤ n) (hx : x < n) : (x + 1) % n ≠ x := by
  by_cases hlt : x + 1 < n
  · rw [Nat.mod_eq_of_lt hlt]
    omega
  · have e : x + 1 = n := by omega
    rw [e, Nat.mod_self]
    omega

/-- Claim C10: the forced-collision scenario under `LINEAR_P`, at any capacity
of at least 2 and for any two distinct keys `a`, `b` with the same home index.
From the empty table: inserting `a` returns 1, stores `a` in its home slot, and
`stats[0]` is 0; inserting `b` returns 1, stores `b` in slot
`(home + 1) % capacity`, and `stats[1]` is 1; inserting `a` again returns 2 and
leaves the stats array as it was; `num_keys` is then 2. -/
theorem forced_collision_scenario (capacity : Nat) (a b : Word) (hc : 2 ≤ capacity)
    (hab : a ≠ b)
    (hhome : htable_word_to_int a % capacity = htable_word_to_int b % capacity) :
    ∃ h1 h2 h3,
      htable_insert (htable_new capacity hashing_t.LINEAR_P) a = some (h1, 1)
      ∧ key_at h1 (htable_word_to_int a % capacity) = some a
      ∧ stat_at h1 0 = 0
      ∧ htable_insert h1 b = some (h2, 1)
      ∧ key_at h2 ((htable_word_to_int a % capacity + 1) % capacity) = some b
      ∧ key_at h2 (htable_word_to_int a % capacity) = some a
      ∧ stat_at h2 1 = 1
      ∧ htable_insert h2 a = some (h3, 2)
      ∧ h3.stats = h2.stats
      ∧ h3.num_keys = 2 := by
  have hc0 : 0 < capacity := by omega
  have hinv0 := inv_new capacity hashing_t.LINEAR_P hc0
  have hhlt : htable_word_to_int a % capacity < capacity := Nat.mod_lt _ hc0
  have hne := succ_mod_ne capacity _ hc hhlt
  -- the first insert
  have hk0 : ∀ i, key_at (htable_new capacity hashing_t.LINEAR_P) i = none := by
    intro i
    simp [key_at, htable_new, List.getD_eq_getElem?_getD, List.getElem?_replicate]
    split <;> rfl
  have hs0 : ∀ i, stat_at (htable_new capacity hashing_t.LINEAR_P) i = 0 :=
    fun i => hinv0.stats_zero i (Nat.zero_le _)
  have hp0 : probe_index (htable_new capacity hashing_t.LINEAR_P) a 0
      = htable_word_to_int a % capacity := probe_index_zero _ a
  have e1 := insert_eq_place (htable_new capacity hashing_t.LINEAR_P) a 0 hc0
    (fun hm => by cases hm) (fun u hu => by omega) (hk0 _)
  rw [hp0] at e1
  have hinv1 := inv_insert _ hinv0 a _ 1 e1
  have hkl0 : htable_word_to_int a % capacity
      < (htable_new capacity hashing_t.LINEAR_P).keys.length := by
    rw [hinv0.keys_len]; exact hhlt
  -- the second insert
  have hq0 : ∀ h : htablerec, h.capacity = capacity → h.method = hashing_t.LINEAR_P →
      probe_index h b 0 = htable_word_to_int a % capacity := by
    intro h e _
    rw [probe_index_zero, e, hhome]
  have hq1 : ∀ h : htablerec, h.capacity = capacity → h.method = hashing_t.LINEAR_P →
      probe_index h b 1 = (htable_word_to_int a % capacity + 1) % capacity := by
    intro h e hm
    rw [probe_index_linear h b 1 hm, e, hhome]
  have hka1 : key_at (place (htable_new capacity hashing_t.LINEAR_P) a
      (htable_word_to_int a % capacity) 0) (htable_word_to_int a % capacity) = some a := by
    rw [key_at_place _ _ _ _ _ hkl0, if_pos rfl]
  have e2 := insert_eq_place (place (htable_new capacity hashing_t.LINEAR_P) a
      (htable_word_to_int a % capacity) 0) b 1 hc (fun hm => by cases hm)
    (fun u hu => by
      have hu0 : u = 0 := by omega
      subst hu0
      rw [hq0 _ rfl rfl]
      refine ⟨?_, ?_⟩
      · rw [hka1]; exact fun hh => by cases hh
      · rw [hka1]; exact fun hh => hab (Option.some.inj hh))
    (by
      rw [hq1 _ rfl rfl, key_at_place _ _ _ _ _ hkl0, if_neg hne]
      exact hk0 _)
  rw [hq1 _ rfl rfl] at e2
  have hinv2 := inv_insert _ hinv1 b _ 1 e2
  have hkl1 : (htable_word_to_int a % capacity + 1) % capacity
      < (place (htable_new capacity hashing_t.LINEAR_P) a
          (htable_word_to_int a % capacity) 0).keys.length := by
    rw [hinv1.keys_len]; exact Nat.mod_lt _ hc0
  have hka2 : key_at (place (place (htable_new capacity hashing_t.LINEAR_P) a
      (htable_word_to_int a % capacity) 0) b
      ((htable_word_to_int a % capacity + 1) % capacity) 1)
      (htable_word_to_int a % capacity) = some a := by
    rw [key_at_place _ _ _ _ _ hkl1, if_neg (fun hh => hne hh.symm)]
    exact hka1
  -- the third insert
  have e3 : htable_insert (place (place (htable_new capacity hashing_t.LINEAR_P) a
      (htable_word_to_int a % capacity) 0) b
      ((htable_word_to_int a % capacity + 1) % capacity) 1) a
      = some (incr_freq (place (place (htable_new capacity hashing_t.LINEAR_P) a
          (htable_word_to_int a % capacity) 0) b
          ((htable_word_to_int a % capacity + 1) % capacity) 1)
          (htable_word_to_int a % capacity),
        freq_at (place (place (htable_new capacity hashing_t.LINEAR_P) a
          (htable_word_to_int a % capacity) 0) b
          ((htable_word_to_int a % capacity + 1) % capacity) 1)
          (htable_word_to_int a % capacity) + 1) := by
    have := insert_eq_incr (place (place (htable_new capacity hashing_t.LINEAR_P) a
        (htable_word_to_int a % capacity) 0) b
        ((htable_word_to_int a % capacity + 1) % capacity) 1) a 0 hc0
      (fun hm => by cases hm) (fun u hu => by omega)
      (by rw [probe_index_zero]; exact hka2)
    rw [probe_index_zero] at this
    exact this
  have hf : freq_at (place (place (htable_new capacity hashing_t.LINEAR_P) a
      (htable_word_to_int a % capacity) 0) b
      ((htable_word_to_int a % capacity + 1) % capacity) 1)
      (htable_word_to_int a % capacity) = 1 := by
    rw [freq_at_place _ _ _ _ _ (by rw [hinv1.freqs_len]; exact Nat.mod_lt _ hc0),
      if_neg (fun hh => hne hh.symm),
      freq_at_place _ _ _ _ _ (by rw [hinv0.freqs_len]; exact hhlt), if_pos rfl,
      (hinv0.freq_zero _ hhlt).1 (hk0 _)]
  rw [hf] at e3
  refine ⟨_, _, _, e1, hka1, ?_, e2, ?_, hka2, ?_, e3, rfl, rfl⟩
  · rw [stat_at_place _ _ _ _ _ (by rw [hinv0.stats_len]; exact hc0), if_pos (by rfl), hs0]
  · rw [key_at_place _ _ _ _ _ hkl1, if_pos rfl]
  · have hs1 : stat_at (place (htable_new capacity hashing_t.LINEAR_P) a
        (htable_word_to_int a % capacity) 0)
        (place (htable_new capacity hashing_t.LINEAR_P) a
          (htable_word_to_int a % capacity) 0).num_keys = 0 :=
      (stat_at_place_other _ _ _ _ _
        (Nat.succ_ne_self (htable_new capacity hashing_t.LINEAR_P).num_keys)).trans (hs0 _)
    rw [stat_at_place _ _ _ _ _ (by rw [hinv1.stats_len]; exact hc), if_pos (by rfl), hs1]

/-- Claim C10 at the instance of the specification: capacity 5, `"a"` and `"f"`. -/
theorem forced_collision_scenario_witness :
    2 ≤ 5 ∧ ([97] : Word) ≠ [102]
    ∧ htable_word_to_int [97] % 5 = htable_word_to_int [102] % 5
    ∧ ∃ h1 h2 h3,
      htable_insert (htable_new 5 hashing_t.LINEAR_P) [97] = some (h1, 1)
      ∧ key_at h1 (htable_word_to_int [97] % 5) = some [97]
      ∧ stat_at h1 0 = 0
      ∧ htable_insert h1 [102] = some (h2, 1)
      ∧ key_at h2 ((htable_word_to_int [97] % 5 + 1) % 5) = some [102]
      ∧ key_at h2 (htable_word_to_int [97] % 5) = some [97]
      ∧ stat_at h2 1 = 1
      ∧ htable_insert h2 [97] = some (h3, 2)
      ∧ h3.stats = h2.stats
      ∧ h3.num_keys = 2 :=
  ⟨by decide, by decide, by decide,
    forced_collision_scenario 5 [97] [102] (by decide) (by decide) (by decide)⟩

/-- Claim C11 as stated fails under `DOUBLE_H`: at capacity 1 `htable_insert`
calls `htable_step`, whose divisor `capacity - 1` is zero, so the first insert
has no result and does not return 1. -/
theorem first_insert_capacity_one_double :
    htable_insert (htable_new 1 hashing_t.DOUBLE_H) [97] = none
    ∧ ¬ ∃ h1, htable_insert (htable_new 1 hashing_t.DOUBLE_H) [97] = some (h1, 1) := by
  have e : htable_insert (htable_new 1 hashing_t.DOUBLE_H) [97] = none := by decide
  refine ⟨e, ?_⟩
  rintro ⟨h1, hh⟩
  rw [e] at hh
  cases hh

/-- Claim C11, amended: on a `LINEAR_P` table created with capacity 1, the
first insert of any key returns 1 and fills the table (`num_keys` is 1, the
capacity), and a following insert of any other key returns 0 and leaves the
table as it is. -/
theorem capacity_one_linear (a b : Word) (hab : a ≠ b) :
    ∃ h1, htable_insert (htable_new 1 hashing_t.LINEAR_P) a = some (h1, 1)
      ∧ h1.num_keys = 1 ∧ h1.capacity = 1
      ∧ htable_insert h1 b = some (h1, 0) := by
  have hk0 : key_at (htable_new 1 hashing_t.LINEAR_P) 0 = none := rfl
  have hp : ∀ (h : htablerec) (w : Word), h.capacity = 1 → probe_index h w 0 = 0 := by
    intro h w e
    rw [probe_index_zero, e, Nat.mod_one]
  have e1 := insert_eq_place (htable_new 1 hashing_t.LINEAR_P) a 0 (by decide)
    (fun hm => by cases hm) (fun u hu => by omega)
    (by rw [hp _ a rfl]; exact hk0)
  rw [hp _ a rfl] at e1
  have hka : key_at (place (htable_new 1 hashing_t.LINEAR_P) a 0 0) 0 = some a := rfl
  refine ⟨_, e1, rfl, rfl, ?_⟩
  apply insert_eq_full (place (htable_new 1 hashing_t.LINEAR_P) a 0 0) b Nat.one_pos
    (fun hm => by cases hm)
  intro t ht
  have ht1 : t < 1 := ht
  have ht0 : t = 0 := by omega
  subst ht0
  rw [hp _ b rfl]
  refine ⟨?_, ?_⟩
  · rw [hka]; exact fun hh => by cases hh
  · rw [hka]; exact fun hh => hab (Option.some.inj hh)

/-- Claim C11, amended, at a concrete pair of keys: `"a"`, then `"b"`. -/
theorem capacity_one_linear_witness :
    ([97] : Word) ≠ [98]
    ∧ ∃ h1, htable_insert (htable_new 1 hashing_t.LINEAR_P) [97] = some (h1, 1)
      ∧ h1.num_keys = 1 ∧ h1.capacity = 1
      ∧ htable_insert h1 [98] = some (h1, 0) :=
  ⟨by decide, capacity_one_linear [97] [98] (by decide)⟩

/-- Claim C12: at a capacity of at least 2, `htable_step` returns
`1 + (i_key % (capacity - 1))` for every `i_key`, a value between 1 and
`capacity - 1`; and under `LINEAR_P` the step `htable_insert` selects is 1: its
probe indices are `(home + t) % capacity`, and a call on a table of positive
capacity returns with one of the three outcomes over these indices. -/
theorem step_in_range (h : htablerec) (i_key : Nat) (hc : 2 ≤ h.capacity) :
    htable_step h i_key = some (1 + i_key % (h.capacity - 1))
    ∧ 1 ≤ 1 + i_key % (h.capacity - 1)
    ∧ 1 + i_key % (h.capacity - 1) ≤ h.capacity - 1
    ∧ (h.method = hashing_t.LINEAR_P → ∀ str,
        (if h.method = hashing_t.DOUBLE_H then htable_step h (htable_word_to_int str)
          else some 1) = some 1
        ∧ insert_step h str = 1
        ∧ (∀ t, probe_index h str t = (htable_word_to_int str % h.capacity + t) % h.capacity)
        ∧ ∃ h' r, htable_insert h str = some (h', r) ∧ Outcome h str h' r) := by
  have hlt : i_key % (h.capacity - 1) < h.capacity - 1 := Nat.mod_lt _ (by omega)
  refine ⟨?_, by omega, by omega, ?_⟩
  · unfold htable_step
    rw [if_neg (by omega)]
  · intro hm str
    have hstep : insert_step h str = 1 := by
      unfold insert_step
      rw [hm, if_neg (by decide)]
    refine ⟨?_, hstep, fun t => probe_index_linear h str t hm, ?_⟩
    · rw [hm, if_neg (by decide)]
    · exact insert_outcome h str (by omega) (fun _ => hc)

/-- Claim C12 at a concrete table: the table holding `"a"` and `"f"`, and the
raw hash 102 of `"f"`. -/
theorem step_in_range_witness :
    2 ≤ sample_af.capacity
    ∧ htable_step sample_af 102 = some (1 + 102 % (sample_af.capacity - 1))
    ∧ 1 ≤ 1 + 102 % (sample_af.capacity - 1)
    ∧ 1 + 102 % (sample_af.capacity - 1) ≤ sample_af.capacity - 1 :=
  have w := step_in_range sample_af 102 (by decide)
  ⟨by decide, w.1, w.2.1, w.2.2.1⟩

/-! ## The statistics report -/

theorem stats_header_lines (h : htablerec) :
    stats_header h
      = [line_t.text (if h.method = hashing_t.LINEAR_P then "\nLinear Probing\n\n"
            else "\nDouble Hashing\n\n"),
         line_t.text "Percent   Current    Percent    Average      Maximum\n",
         line_t.text " Full     Entries    At Home   Collisions   Collisions\n",
         line_t.text "------------------------------------------------------\n"] := by
  unfold stats_header
  cases h.method <;> rfl

theorem is_prime_loop_composite (n : Nat) (hn2 : 2 ≤ n) (hnp : ¬ Nat.Prime n)
    (hmax : n ≤ 2147483647) :
    ∀ fuel i, 2 ≤ i → i ≤ Nat.minFac n → Nat.minFac n + 1 ≤ fuel + i →
      is_prime_loop fuel n i = some 0 := by
  have hsq : Nat.minFac n * Nat.minFac n ≤ n := by
    have := Nat.minFac_sq_le_self (by omega : 0 < n) hnp
    rwa [sq] at this
  intro fuel
  induction fuel with
  | zero => intro i _ h2 h3; omega
  | succ fuel ih =>
    intro i h1 h2 h3
    have hii : i * i ≤ n := le_trans (Nat.mul_le_mul h2 h2) hsq
    unfold is_prime_loop
    rw [if_neg (by omega), if_pos hii]
    by_cases hdiv : n % i = 0
    · rw [if_pos hdiv]
    · rw [if_neg hdiv]
      have hne : i ≠ Nat.minFac n := by
        intro e
        rw [e] at hdiv
        exact hdiv (Nat.mod_eq_zero_of_dvd (Nat.minFac_dvd n))
      exact ih (i + 1) (by omega) (by omega) (by omega)

theorem is_prime_loop_prime (n : Nat) (hp : Nat.Prime n) (hlt : n < 2147395600) :
    ∀ fuel i, 2 ≤ i → i ≤ 46340 → i ≤ n → n + 2 ≤ fuel + i →
      is_prime_loop fuel n i = some 1 := by
  intro fuel
  induction fuel with
  | zero => intro i _ _ h3 h4; omega
  | succ fuel ih =>
    intro i h1 h2 h3 h4
    have hov : i * i ≤ 2147395600 := Nat.mul_le_mul h2 h2
    unfold is_prime_loop
    rw [if_neg (by omega)]
    by_cases hii : i * i ≤ n
    · rw [if_pos hii]
      have hdiv : ¬ n % i = 0 := by
        intro hz
        rcases (Nat.dvd_prime hp).1 (Nat.dvd_of_mod_eq_zero hz) with e | e
        · omega
        · rw [e] at hii
          nlinarith
      rw [if_neg hdiv]
      have hi1 : i + 1 ≤ 46340 := by
        by_contra hge
        have : 46340 ≤ i := by omega
        have : 46340 * 46340 ≤ i * i := Nat.mul_le_mul this this
        omega
      have hi2 : i + 1 ≤ n := by nlinarith
      exact ih (i + 1) (by omega) hi1 hi2 (by omega)
    · rw [if_neg hii]

theorem is_prime_spec (n : Int) (hmax : n ≤ 2147483647)
    (hr : n < 2147395600 ∨ ¬ Nat.Prime n.toNat) :
    is_prime n = some (if Nat.Prime n.toNat then 1 else 0) := by
  unfold is_prime
  by_cases h1 : n ≤ 1
  · rw [if_pos h1]
    have hnp : ¬ Nat.Prime n.toNat := by
      intro hp
      have := hp.two_le
      omega
    rw [if_neg hnp]
  · rw [if_neg h1]
    by_cases hp : Nat.Prime n.toNat
    · rw [if_pos hp]
      rcases hr with hr | hr
      · exact is_prime_loop_prime n.toNat hp (by omega) _ 2 (le_refl 2) (by decide)
          (by omega) (le_refl _)
      · exact (hr hp).elim
    · rw [if_neg hp]
      have hmf : Nat.minFac n.toNat ≤ n.toNat := Nat.minFac_le (by omega)
      have hmf2 : 2 ≤ Nat.minFac n.toNat := (Nat.minFac_prime (by omega)).two_le
      exact is_prime_loop_composite n.toNat (by omega) hp (by omega) _ 2 (le_refl 2) hmf2
        (by omega)

theorem next_prime_loop_spec (p : Nat) (hp : Nat.Prime p) (hrange : p < 2147395600) :
    ∀ fuel (c : Int), c ≤ p → (∀ q : Nat, Nat.Prime q → c ≤ q → p ≤ q) →
      (p - c).toNat + 1 ≤ fuel → next_prime_loop fuel c = some (p : Int) := by
  intro fuel
  induction fuel with
  | zero => intro c _ _ h3; omega
  | succ fuel ih =>
    intro c h1 h2 h3
    unfold next_prime_loop
    by_cases hcp : c = p
    · subst hcp
      rw [is_prime_spec (p : Int) (by omega) (Or.inl (by omega)), Int.toNat_ofNat, if_pos hp]
    · have hnp : ¬ Nat.Prime c.toNat := by
        intro hq
        have := h2 c.toNat hq (Int.self_le_toNat c)
        have := hq.two_le
        omega
      rw [is_prime_spec c (by omega) (Or.inr hnp), if_neg hnp]
      exact ih (c + 1) (by omega) (fun q hq hle => h2 q hq (by omega)) (by omega)

theorem next_prime_spec (n : Int) (p : Nat) (hp : Nat.Prime p) (hle : n ≤ p)
    (hmin : ∀ q : Nat, Nat.Prime q → n ≤ q → p ≤ q) (hrange : p < 2147395600) :
    next_prime n = some (p : Int) := by
  unfold next_prime
  apply next_prime_loop_spec p hp hrange _ n hle hmin
  by_cases hn : n ≤ 0
  · have hp2 : p ≤ 2 := hmin 2 Nat.prime_two (by omega)
    omega
  · obtain ⟨q, hq, hq1, hq2⟩ := Nat.exists_prime_lt_and_le_two_mul n.toNat (by omega)
    have := hmin q hq (by omega)
    omega

/-- Claim C14: wherever `i * i` does not overflow (an `n` of the `int` range
that is below `46340 * 46340` or is not prime), `is_prime` returns 1 when `n` is
prime and 0 when it is not; and `next_prime` returns the smallest prime `p` with
`p ≥ n` whenever that prime is below `46340 * 46340`: it needs no more than the
`2 * |n| + 4` candidates it is given, it returns `n` itself when `n` is prime,
and it returns 2 for every `n ≤ 2`. -/
theorem primes_correct :
    (∀ n : Int, n ≤ 2147483647 → (n < 2147395600 ∨ ¬ Nat.Prime n.toNat) →
      is_prime n = some (if Nat.Prime n.toNat then 1 else 0))
    ∧ (∀ (n : Int) (p : Nat), Nat.Prime p → n ≤ p →
        (∀ q : Nat, Nat.Prime q → n ≤ q → p ≤ q) → p < 2147395600 →
        next_prime n = some (p : Int))
    ∧ (∀ n : Int, Nat.Prime n.toNat → n < 2147395600 → next_prime n = some n)
    ∧ (∀ n : Int, n ≤ 2 → next_prime n = some 2) := by
  refine ⟨is_prime_spec, next_prime_spec, ?_, ?_⟩
  · intro n hp hlt
    have h2 := hp.two_le
    have e : ((n.toNat : Nat) : Int) = n := Int.toNat_of_nonneg (by omega)
    have := next_prime_spec n n.toNat hp (by omega) (fun q _ hq => by omega) (by omega)
    rwa [e] at this
  · intro n hn
    exact next_prime_spec n 2 Nat.prime_two (by omega)
      (fun q hq _ => hq.two_le) (by decide)

/-- Claim C14 at concrete inputs: 97 is prime, 91 is not, and the first prime
from 8 on is 11. -/
theorem primes_correct_witness :
    ((97 : Int) ≤ 2147483647 ∧ (97 : Int) < 2147395600 ∧ is_prime 97 = some 1)
    ∧ ((91 : Int) ≤ 2147483647 ∧ ¬ Nat.Prime 91 ∧ is_prime 91 = some 0)
    ∧ (Nat.Prime 11 ∧ (8 : Int) ≤ 11
        ∧ (∀ q : Nat, Nat.Prime q → (8 : Int) ≤ q → 11 ≤ q) ∧ next_prime 8 = some 11) := by
  have h97 : Nat.Prime 97 := by norm_num
  have h91 : ¬ Nat.Prime 91 := by norm_num
  have h11 : Nat.Prime 11 := by norm_num
  have hmin : ∀ q : Nat, Nat.Prime q → (8 : Int) ≤ q → 11 ≤ q := by
    intro q hq hle
    by_contra hlt
    have h8 : 8 ≤ q := by omega
    have h10 : q ≤ 10 := by omega
    interval_cases q <;> revert hq <;> norm_num
  refine ⟨⟨by decide, by decide, ?_⟩, ⟨by decide, h91, ?_⟩, ⟨h11, by decide, hmin, ?_⟩⟩
  · have := primes_correct.1 97 (by decide) (Or.inl (by decide))
    rwa [show (97 : Int).toNat = 97 from rfl, if_pos h97] at this
  · have := primes_correct.1 91 (by decide) (Or.inr h91)
    rwa [show (91 : Int).toNat = 91 from rfl, if_neg h91] at this
  · exact primes_correct.2.1 8 11 h11 (by decide) hmin (by decide)

/-- Claim C15: on a reachable table, when the insert of a key that no slot holds
returns 1, there is a least `j` below the capacity whose probe index
`(home + j * step) % capacity` was empty; afterwards the key sits there with
frequency 1, `stats[num_keys]` (at the old `num_keys`) is `j`, `num_keys` has
grown by one, and every other slot and every other stats entry is as before. -/
theorem new_key_placement (h : htablerec) (str : Word) (h' : htablerec)
    (hr : Reachable h) (hab : ¬ stored h str) (hi : htable_insert h str = some (h', 1)) :
    ∃ j, j < h.capacity
      ∧ probe_index h str j
          = (htable_word_to_int str % h.capacity + j * insert_step h str) % h.capacity
      ∧ key_at h (probe_index h str j) = none
      ∧ (∀ u, u < j → key_at h (probe_index h str u) ≠ none)
      ∧ key_at h' (probe_index h str j) = some str
      ∧ freq_at h' (probe_index h str j) = 1
      ∧ stat_at h' h.num_keys = j
      ∧ h'.num_keys = h.num_keys + 1
      ∧ (∀ i, i ≠ probe_index h str j → key_at h' i = key_at h i ∧ freq_at h' i = freq_at h i)
      ∧ (∀ i, i ≠ h.num_keys → stat_at h' i = stat_at h i)
      ∧ h'.capacity = h.capacity ∧ h'.method = h.method := by
  have hinv := inv_reachable h hr
  have hout := insert_outcome_of_eq h str h' 1 hi
  generalize hr1 : (1 : Nat) = r at hout
  cases hout with
  | placed t ht hbefore hempty =>
    have hlt : probe_index h str t < h.capacity := probe_index_lt h str t hinv.cap_pos
    have hik : probe_index h str t < h.keys.length := by rw [hinv.keys_len]; exact hlt
    have hif : probe_index h str t < h.freqs.length := by rw [hinv.freqs_len]; exact hlt
    have hnk : h.num_keys < h.stats.length := by
      have := count_lt_of_empty h.keys _ hik (by rw [key_get_of_key_at]; exact hempty)
      rw [← hinv.count, hinv.keys_len] at this
      rw [hinv.stats_len]
      exact this
    refine ⟨t, ht, rfl, hempty, fun u hu => (hbefore u hu).1, ?_, ?_, ?_, rfl, ?_, ?_, rfl, rfl⟩
    · rw [key_at_place _ _ _ _ _ hik, if_pos rfl]
    · rw [freq_at_place _ _ _ _ _ hif, if_pos rfl, (hinv.freq_zero _ hlt).1 hempty]
    · rw [stat_at_place _ _ _ _ _ hnk, if_pos rfl, hinv.stats_zero _ (le_refl _), Nat.zero_add]
    · intro i hne
      rw [key_at_place _ _ _ _ _ hik, if_neg hne, freq_at_place _ _ _ _ _ hif, if_neg hne]
      exact ⟨rfl, rfl⟩
    · intro i hne
      exact stat_at_place_other _ _ _ _ _ hne
  | bumped t ht hbefore hs =>
    exact (hab ⟨_, probe_index_lt h str t hinv.cap_pos, hs⟩).elim
  | gave_up _ => cases hr1

/-- Claim C15 at a concrete table: `"k"` is inserted into the table holding `"a"`
and `"f"`, and lands after two collisions. -/
theorem new_key_placement_witness :
    Reachable sample_af ∧ ¬ stored sample_af [107]
    ∧ htable_insert sample_af [107] = some (sample_afk, 1)
    ∧ ∃ j, j < sample_af.capacity
      ∧ probe_index sample_af [107] j
          = (htable_word_to_int [107] % sample_af.capacity + j * insert_step sample_af [107])
              % sample_af.capacity
      ∧ key_at sample_af (probe_index sample_af [107] j) = none
      ∧ (∀ u, u < j → key_at sample_af (probe_index sample_af [107] u) ≠ none)
      ∧ key_at sample_afk (probe_index sample_af [107] j) = some [107]
      ∧ freq_at sample_afk (probe_index sample_af [107] j) = 1
      ∧ stat_at sample_afk sample_af.num_keys = j
      ∧ sample_afk.num_keys = sample_af.num_keys + 1
      ∧ (∀ i, i ≠ probe_index sample_af [107] j →
          key_at sample_afk i = key_at sample_af i ∧ freq_at sample_afk i = freq_at sample_af i)
      ∧ (∀ i, i ≠ sample_af.num_keys → stat_at sample_afk i = stat_at sample_af i)
      ∧ sample_afk.capacity = sample_af.capacity ∧ sample_afk.method = sample_af.method :=
  ⟨sample_af_reachable, by decide, by decide,
    new_key_placement sample_af [107] sample_afk sample_af_reachable (by decide) (by decide)⟩

theorem step_coprime_prime (n k : Nat) (hp : Nat.Prime n) :
    Nat.Coprime n (1 + k % (n - 1)) := by
  have h2 := hp.two_le
  have hlt : k % (n - 1) < n - 1 := Nat.mod_lt _ (by omega)
  apply (Nat.Prime.coprime_iff_not_dvd hp).2
  intro hdvd
  have := Nat.le_of_dvd (by omega) hdvd
  omega

/-- Claim C16: under `LINEAR_P` at any capacity of at least 1, and under
`DOUBLE_H` at a prime capacity, for every raw hash value `i_key` the step that
`htable_insert` selects is defined (1, respectively
`1 + i_key % (capacity - 1)`), and the indices `(home + j * step) % capacity`
with `home = i_key % capacity` and `j` below the capacity are pairwise distinct,
cover every slot, and are back at `home` for `j = capacity`; they are the probe
indices of every key whose hash is `i_key`. -/
theorem probe_sequence_permutation (h : htablerec) (i_key : Nat)
    (hm : (h.method = hashing_t.LINEAR_P ∧ 1 ≤ h.capacity)
      ∨ (h.method = hashing_t.DOUBLE_H ∧ Nat.Prime h.capacity)) :
    ∃ step,
      (if h.method = hashing_t.DOUBLE_H then htable_step h i_key else some 1) = some step
      ∧ (h.method = hashing_t.LINEAR_P → step = 1)
      ∧ (h.method = hashing_t.DOUBLE_H → step = 1 + i_key % (h.capacity - 1))
      ∧ (∀ j u, j < h.capacity → u < h.capacity →
          (i_key % h.capacity + j * step) % h.capacity
            = (i_key % h.capacity + u * step) % h.capacity → j = u)
      ∧ (∀ i, i < h.capacity →
          ∃ j, j < h.capacity ∧ (i_key % h.capacity + j * step) % h.capacity = i)
      ∧ (i_key % h.capacity + h.capacity * step) % h.capacity = i_key % h.capacity
      ∧ (∀ str, htable_word_to_int str = i_key → ∀ j,
          probe_index h str j = (i_key % h.capacity + j * step) % h.capacity) := by
  have hc : 0 < h.capacity := by
    rcases hm with ⟨_, h1⟩ | ⟨_, hp⟩
    · omega
    · exact hp.pos
  have key : ∀ step, Nat.Coprime h.capacity step →
      (∀ j u, j < h.capacity → u < h.capacity →
          (i_key % h.capacity + j * step) % h.capacity
            = (i_key % h.capacity + u * step) % h.capacity → j = u)
      ∧ (∀ i, i < h.capacity →
          ∃ j, j < h.capacity ∧ (i_key % h.capacity + j * step) % h.capacity = i)
      ∧ (i_key % h.capacity + h.capacity * step) % h.capacity = i_key % h.capacity := by
    intro step hco
    refine ⟨fun j u hj hu e => probe_injective _ _ _ hco j u hj hu e,
      fun i hi => probe_surjective _ _ _ hc hco i hi, ?_⟩
    rw [Nat.add_mul_mod_self_left, Nat.mod_mod]
  rcases hm with ⟨hl, _⟩ | ⟨hd, hp⟩
  · obtain ⟨k1, k2, k3⟩ := key 1 (Nat.coprime_one_right _)
    refine ⟨1, ?_, fun _ => rfl, ?_, k1, k2, k3, ?_⟩
    · rw [hl, if_neg (by decide)]
    · intro hd
      rw [hl] at hd
      cases hd
    · intro str e j
      rw [probe_index_linear h str j hl, e, Nat.mul_one]
  · have h2 := hp.two_le
    obtain ⟨k1, k2, k3⟩ := key _ (step_coprime_prime h.capacity i_key hp)
    refine ⟨1 + i_key % (h.capacity - 1), ?_, ?_, fun _ => rfl, k1, k2, k3, ?_⟩
    · rw [if_pos hd]
      unfold htable_step
      rw [if_neg (by omega)]
    · intro hl
      rw [hd] at hl
      cases hl
    · intro str e j
      unfold probe_index insert_step
      rw [if_pos hd, e]

/-- Claim C16 at a concrete table: the empty `DOUBLE_H` table of capacity 7 and
the raw hash 112 of `"p"`, whose step is 5. -/
theorem probe_sequence_permutation_witness :
    ((htable_new 7 hashing_t.DOUBLE_H).method = hashing_t.DOUBLE_H
      ∧ Nat.Prime (htable_new 7 hashing_t.DOUBLE_H).capacity)
    ∧ ∃ step, htable_step (htable_new 7 hashing_t.DOUBLE_H) 112 = some step
      ∧ step = 5
      ∧ (∀ j u, j < 7 → u < 7 →
          (112 % 7 + j * step) % 7 = (112 % 7 + u * step) % 7 → j = u)
      ∧ (∀ i, i < 7 → ∃ j, j < 7 ∧ (112 % 7 + j * step) % 7 = i)
      ∧ (112 % 7 + 7 * step) % 7 = 112 % 7 := by
  have hp : Nat.Prime (htable_new 7 hashing_t.DOUBLE_H).capacity := by
    show Nat.Prime 7
    norm_num
  obtain ⟨step, e1, _, e3, e4, e5, e6, _⟩ :=
    probe_sequence_permutation (htable_new 7 hashing_t.DOUBLE_H) 112 (Or.inr ⟨rfl, hp⟩)
  exact ⟨⟨rfl, hp⟩, step, e1, e3 rfl, e4, e5, e6⟩

/-- Claim C17 (the code departs from it): `htable_search` starts at the index
`htable_insert` starts at, but not with its step.  For `"f"` in the `LINEAR_P`
table of capacity 5 holding `"a"`, insert steps by 1 and search by
`htable_step` of the start index 2, which is 3, so after slot 2 insert examines
slot 3 and search slot 0.  For `"p"` in a `DOUBLE_H` table of capacity 7, insert
steps by `htable_step` of the raw hash 112, which is 5, and search by
`htable_step` of the reduced hash 0, which is 1. -/
theorem search_step_differs :
    ((if sample_a.method = hashing_t.DOUBLE_H
        then htable_step sample_a (htable_word_to_int [102]) else some 1) = some 1
      ∧ htable_step sample_a (htable_word_to_int [102] % sample_a.capacity) = some 3
      ∧ htable_search sample_a [102]
          = search_loop (sample_a.capacity + 1) sample_a [102] 3 2 0
      ∧ probe_index sample_a [102] 1 = 3
      ∧ (2 + 3) % sample_a.capacity = 0)
    ∧ ((if (htable_new 7 hashing_t.DOUBLE_H).method = hashing_t.DOUBLE_H
        then htable_step (htable_new 7 hashing_t.DOUBLE_H) (htable_word_to_int [112])
        else some 1) = some 5
      ∧ htable_step (htable_new 7 hashing_t.DOUBLE_H)
          (htable_word_to_int [112] % (htable_new 7 hashing_t.DOUBLE_H).capacity) = some 1
      ∧ htable_search (htable_new 7 hashing_t.DOUBLE_H) [112]
          = search_loop 8 (htable_new 7 hashing_t.DOUBLE_H) [112] 1 0 0) :=
  ⟨⟨by decide, by decide, rfl, by decide, by decide⟩, ⟨by decide, by decide, rfl⟩⟩

/-! ## The hash is a polynomial -/

theorem poly_sum_cons (c : Nat) (w : Word) :
    poly_sum (c :: w) = c * 31 ^ w.length + poly_sum w := by
  unfold poly_sum
  rw [List.length_cons, List.range_succ_eq_map, List.map_cons, List.sum_cons, List.map_map]
  congr 1
  congr 1
  apply List.map_congr_left
  intro i _
  simp only [Function.comp_apply, List.getD_cons_succ]
  congr 2
  omega

theorem word_to_int_loop_spec (w : Word) :
    ∀ acc, acc < 4294967296 →
      word_to_int_loop w acc = (acc * 31 ^ w.length + poly_sum w) % 4294967296 := by
  induction w with
  | nil =>
    intro acc hacc
    have e : poly_sum [] = 0 := rfl
    rw [e, List.length_nil, pow_zero, Nat.mul_one, Nat.add_zero, Nat.mod_eq_of_lt hacc]
    rfl
  | cons c w ih =>
    intro acc _
    unfold word_to_int_loop
    rw [ih _ (Nat.mod_lt _ (by decide)), poly_sum_cons, List.length_cons]
    rw [Nat.add_mod, Nat.mul_mod, Nat.mod_mod, ← Nat.mul_mod, ← Nat.add_mod]
    congr 1
    ring

/-- Claim C18: `htable_word_to_int` of a word with character codes
`c_0 .. c_(n-1)` (any codes, those of 0..127 among them) is the sum of
`c_i * 31 ^ (n - 1 - i)` reduced modulo `2^32`; it is 0 for the empty word; and
`htable_insert` starts probing at this value modulo the capacity: when that slot
is empty the key is put there with no collision. -/
theorem word_to_int_polynomial (w : Word) :
    htable_word_to_int w = poly_sum w % 4294967296
    ∧ htable_word_to_int [] = 0
    ∧ (∀ h : htablerec, probe_index h w 0 = poly_sum w % 4294967296 % h.capacity)
    ∧ (∀ h : htablerec, 0 < h.capacity → (h.method = hashing_t.DOUBLE_H → 2 ≤ h.capacity) →
        key_at h (poly_sum w % 4294967296 % h.capacity) = none →
        htable_insert h w
          = some (place h w (poly_sum w % 4294967296 % h.capacity) 0, 1)) := by
  have e : htable_word_to_int w = poly_sum w % 4294967296 := by
    unfold htable_word_to_int
    rw [word_to_int_loop_spec w 0 (by decide), Nat.zero_mul, Nat.zero_add]
  have e0 : ∀ h : htablerec, probe_index h w 0 = poly_sum w % 4294967296 % h.capacity := by
    intro h
    rw [probe_index_zero, e]
  refine ⟨e, rfl, e0, ?_⟩
  intro h hc hd hempty
  have := insert_eq_place h w 0 hc hd (fun u hu => by omega) (by rw [e0]; exact hempty)
  rwa [e0] at this

/-- Claim C18 at a concrete word: `"af"` hashes to `97 * 31 + 102`, and lands in
slot `3109 % 5` of the empty table of capacity 5. -/
theorem word_to_int_polynomial_witness :
    htable_word_to_int [97, 102] = (97 * 31 + 102) % 4294967296
    ∧ 0 < (htable_new 5 hashing_t.LINEAR_P).capacity
    ∧ key_at (htable_new 5 hashing_t.LINEAR_P)
        (poly_sum [97, 102] % 4294967296 % (htable_new 5 hashing_t.LINEAR_P).capacity) = none
    ∧ htable_insert (htable_new 5 hashing_t.LINEAR_P) [97, 102]
        = some (place (htable_new 5 hashing_t.LINEAR_P) [97, 102]
            (poly_sum [97, 102] % 4294967296 % (htable_new 5 hashing_t.LINEAR_P).capacity) 0, 1) :=
  have w := word_to_int_polynomial [97, 102]
  ⟨w.1, by decide, by decide,
    w.2.2.2 (htable_new 5 hashing_t.LINEAR_P) (by decide) (fun hm => by cases hm) (by decide)⟩

/-! ## The rows of the statistics report -/

theorem stats_loop_spec (h : htablerec) :
    ∀ n i at_home max_collisions average_collisions,
      stats_loop h n i at_home max_collisions average_collisions
        = (at_home + ((List.range' i n).map (fun k => stat_at h k)).count 0,
           max max_collisions (((List.range' i n).map (fun k => stat_at h k)).foldr max 0),
           average_collisions + ((List.range' i n).map (fun k => stat_at h k)).sum) := by
  intro n
  induction n with
  | zero =>
    intro i a m s
    simp [stats_loop]
  | succ n ih =>
    intro i a m s
    unfold stats_loop
    rw [ih, List.range'_succ, List.map_cons, List.count_cons, List.foldr_cons, List.sum_cons]
    by_cases hz : stat_at h i = 0
    · have hm : ¬ stat_at h i > m := by omega
      rw [if_pos hz, if_neg hm, hz]
      simp only [beq_self_eq_true, if_true, Nat.zero_max, Nat.zero_add]
      refine Prod.ext ?_ (Prod.ext rfl rfl)
      show a + 1 + _ = a + (_ + 1)
      omega
    · have hb : (stat_at h i == 0) = false := by simpa using hz
      rw [if_neg hz, hb]
      simp only [Bool.false_eq_true, if_false, Nat.add_zero]
      refine Prod.ext rfl (Prod.ext ?_ ?_)
      · show max (if stat_at h i > m then stat_at h i else m) _ = max m (max (stat_at h i) _)
        by_cases hm : stat_at h i > m
        · rw [if_pos hm, ← max_assoc, max_eq_right (le_of_lt hm)]
        · rw [if_neg hm, ← max_assoc, max_eq_left (not_lt.1 hm)]
      · show s + stat_at h i + _ = s + (stat_at h i + _)
        omega

theorem wrap_int_of_range (x : Int) (h0 : 0 ≤ x) (h1 : x ≤ 2147483647) : wrap_int x = x := by
  unfold wrap_int
  omega

theorem percent_full_exact (num_stats i : Nat) (hi : 100 * i ≤ 2147483647) :
    percent_full_of num_stats i = ((100 * i / num_stats : Nat) : Int) := by
  unfold percent_full_of
  have e : (100 : Int) * (i : Int) = ((100 * i : Nat) : Int) := by push_cast; rfl
  rw [e, wrap_int_of_range _ (Int.ofNat_nonneg _) (by exact_mod_cast hi)]
  exact (Int.ofNat_tdiv _ _).symm

theorem current_entries_exact (h : htablerec) (p : Nat) (hp : h.capacity * p ≤ 2147483647) :
    current_entries_of h (p : Int) = ((h.capacity * p / 100 : Nat) : Int) := by
  unfold current_entries_of
  have e : (h.capacity : Int) * (p : Int) = ((h.capacity * p : Nat) : Int) := by push_cast; rfl
  rw [e, wrap_int_of_range _ (Int.ofNat_nonneg _) (by exact_mod_cast hp)]
  exact (Int.ofNat_tdiv _ _).symm

theorem percent_le_hundred (num_stats i : Nat) (hi : i ≤ num_stats) :
    100 * i / num_stats ≤ 100 := by
  apply Nat.div_le_of_le_mul
  nlinarith

theorem print_stats_line_of_entries (h : htablerec) (p : Int) (ce : Nat)
    (hce : current_entries_of h p = (ce : Int)) :
    print_stats_line h p
      = if 0 < ce ∧ ce ≤ h.num_keys then
          some (line_t.row p (ce : Int)
            ((((snapshot_entries h ce).count 0 * 100 : Nat) : ℚ) / (ce : ℚ))
            (((snapshot_entries h ce).sum : ℚ) / (ce : ℚ))
            ((snapshot_entries h ce).foldr max 0))
        else none := by
  rw [print_stats_line]
  simp only []
  rw [hce]
  by_cases hg : 0 < ce ∧ ce ≤ h.num_keys
  · have hg2 : (ce : Int) > 0 ∧ (ce : Int) ≤ (h.num_keys : Int) :=
      ⟨by exact_mod_cast hg.1, by exact_mod_cast hg.2⟩
    rw [if_pos hg, if_pos hg2, Int.toNat_ofNat, stats_loop_spec]
    unfold snapshot_entries
    rw [List.range_eq_range']
    simp only [Nat.zero_add, Nat.zero_max, Int.cast_natCast]
  · have hg2 : ¬ ((ce : Int) > 0 ∧ (ce : Int) ≤ (h.num_keys : Int)) := by
      intro hh
      exact hg ⟨by exact_mod_cast hh.1, by exact_mod_cast hh.2⟩
    rw [if_neg hg, if_neg hg2]

/-- Where neither product overflows, the call for `i` prints the snapshot of the
specification. -/
theorem print_stats_line_spec (h : htablerec) (num_stats i : Nat) (hi : i ≤ num_stats)
    (hs : 100 * i ≤ 2147483647) (hcap : h.capacity ≤ 21474836) :
    print_stats_line h (percent_full_of num_stats i) = snapshot_row h num_stats i := by
  have hp := percent_le_hundred num_stats i hi
  have hprod : h.capacity * (100 * i / num_stats) ≤ 2147483647 := by nlinarith
  have e1 := percent_full_exact num_stats i hs
  have e2 : current_entries_of h (percent_full_of num_stats i)
      = ((h.capacity * (100 * i / num_stats) / 100 : Nat) : Int) := by
    rw [e1]
    exact current_entries_exact h _ hprod
  rw [print_stats_line_of_entries h _ _ e2, e1]
  rfl

theorem print_stats_rows_of_calls (h : htablerec) (num_stats : Nat)
    (G : Nat → Option line_t)
    (hG : ∀ j, print_stats_line h (percent_full_of num_stats j) = G j) :
    ∀ n i, print_stats_rows h num_stats n i
      = (List.range n).filterMap (fun k => G (i + k)) := by
  intro n
  induction n with
  | zero => intro i; rfl
  | succ n ih =>
    intro i
    rw [print_stats_rows, hG, ih, List.range_succ_eq_map, List.filterMap_cons,
      List.filterMap_map]
    have e : (fun k => G (i + 1 + k)) = (fun k => G (i + k)) ∘ Nat.succ := by
      funext k
      show G (i + 1 + k) = G (i + (k + 1))
      rw [Nat.add_assoc, Nat.add_comm 1 k]
    rw [e]
    simp only [Nat.add_zero]
    cases G i <;> rfl

theorem print_stats_rows_calls (h : htablerec) (num_stats : Nat) :
    ∀ n i, print_stats_rows h num_stats n i
      = (List.range n).filterMap
          (fun k => print_stats_line h (percent_full_of num_stats (i + k))) := by
  intro n i
  have key := print_stats_rows_of_calls h num_stats
    (fun j => print_stats_line h (percent_full_of num_stats j)) (fun j => Eq.refl _) n i
  beta_reduce at key
  exact key

theorem filterMap_range_last_differs (F G : Nat → Option line_t) (M : Nat) (line : line_t)
    (hagree : ∀ k, k < M → F k = G k) (hF : F M = none) (hG : G M = some line)
    (before after : List line_t) :
    before ++ (List.range (M + 1)).filterMap F ++ after
      ≠ before ++ (List.range (M + 1)).filterMap G ++ after := by
  have e : (List.range M).filterMap F = (List.range M).filterMap G :=
    List.filterMap_congr (fun k hk => hagree k (List.mem_range.1 hk))
  rw [List.range_succ, List.filterMap_append, List.filterMap_append, e,
    List.filterMap_cons_none hF, List.filterMap_cons_some hG]
  intro hh
  have hl := congrArg List.length hh
  simp only [List.length_append, List.filterMap_nil, List.length_nil, List.length_cons] at hl
  omega

/-- Claim C19 as stated fails once an `int` product overflows.  On the full
table of capacity 2 with `num_stats = 21474837`, the claim's values for the last
snapshot `i = 21474837` are `percent_full = 100` and `current_entries = 2`, with
`0 < 2 ≤ num_keys`, so the claim has the row `100 2 100 0 0` written; in the
program `100 * i` is `2147483700`, beyond `INT_MAX`, it wraps to `-2147483596`,
`percent_full` is `-99`, `current_entries` is `-1`, and the call writes nothing,
so the report lacks the last row of the claim. -/
theorem print_stats_overflow_drops_row :
    Reachable sample_full
    ∧ (100 * 21474837 / 21474837 = 100
        ∧ 0 < sample_full.capacity * (100 * 21474837 / 21474837) / 100
        ∧ sample_full.capacity * (100 * 21474837 / 21474837) / 100 ≤ sample_full.num_keys)
    ∧ snapshot_row sample_full 21474837 21474837 = some (line_t.row 100 2 100 0 0)
    ∧ wrap_int (100 * 21474837) = -2147483596
    ∧ percent_full_of 21474837 21474837 = -99
    ∧ current_entries_of sample_full (percent_full_of 21474837 21474837) = -1
    ∧ print_stats_line sample_full (percent_full_of 21474837 21474837) = none
    ∧ htable_print_stats sample_full 21474837
        ≠ stats_header sample_full
          ++ (List.range 21474837).filterMap (fun k => snapshot_row sample_full 21474837 (k + 1))
          ++ stats_footer := by
  have hrow : snapshot_row sample_full 21474837 21474837 = some (line_t.row 100 2 100 0 0) := by
    simp [snapshot_row, snapshot_entries, stat_at, sample_full, List.range_succ]
    norm_num
  have hnone : print_stats_line sample_full (percent_full_of 21474837 21474837) = none := by
    decide
  refine ⟨sample_full_reachable, by decide, hrow, by decide, by decide, by decide, hnone, ?_⟩
  unfold htable_print_stats
  rw [print_stats_rows_calls]
  have e : (fun k => print_stats_line sample_full (percent_full_of 21474837 (1 + k)))
      = (fun k => print_stats_line sample_full (percent_full_of 21474837 (k + 1))) := by
    funext k
    rw [Nat.add_comm]
  rw [e]
  exact filterMap_range_last_differs
    (fun k => print_stats_line sample_full (percent_full_of 21474837 (k + 1)))
    (fun k => snapshot_row sample_full 21474837 (k + 1)) 21474836 (line_t.row 100 2 100 0 0)
    (fun k hk => print_stats_line_spec sample_full 21474837 (k + 1) (by omega) (by omega)
      (by decide))
    hnone hrow (stats_header sample_full) stats_footer

/-- Claim C19, amended: for every table of capacity at most 21474836 and every
`num_stats` up to 21474836 (so that neither `100 * i` nor
`capacity * percent_full` leaves the `int` range), `htable_print_stats` writes
the four header lines, then the snapshot rows of `i = 1 .. num_stats` in this
order, then the footer line, with `percent_full = 100 * i / num_stats` and
`current_entries = capacity * percent_full / 100` (integer divisions).  The call
for `i` writes a row exactly when `0 < current_entries ≤ num_keys`, and the row
holds `percent_full`, `current_entries`, the number of zero entries among
`stats[0 .. current_entries)` times 100 over `current_entries`, the sum of these
entries over `current_entries`, and their maximum, the quotients being exact
rationals. -/
theorem print_stats_snapshots (h : htablerec) (num_stats : Nat)
    (hs : num_stats ≤ 21474836) (hcap : h.capacity ≤ 21474836) :
    htable_print_stats h num_stats
      = [line_t.text (if h.method = hashing_t.LINEAR_P then "\nLinear Probing\n\n"
            else "\nDouble Hashing\n\n"),
         line_t.text "Percent   Current    Percent    Average      Maximum\n",
         line_t.text " Full     Entries    At Home   Collisions   Collisions\n",
         line_t.text "------------------------------------------------------\n"]
        ++ (List.range num_stats).filterMap (fun k => snapshot_row h num_stats (k + 1))
        ++ [line_t.text "------------------------------------------------------\n\n"]
    ∧ (∀ i, 1 ≤ i → i ≤ num_stats →
        percent_full_of num_stats i = ((100 * i / num_stats : Nat) : Int)
        ∧ current_entries_of h (percent_full_of num_stats i)
            = ((h.capacity * (100 * i / num_stats) / 100 : Nat) : Int)
        ∧ print_stats_line h (percent_full_of num_stats i) = snapshot_row h num_stats i
        ∧ ((print_stats_line h (percent_full_of num_stats i)).isSome
            ↔ (0 < h.capacity * (100 * i / num_stats) / 100
                ∧ h.capacity * (100 * i / num_stats) / 100 ≤ h.num_keys))) := by
  refine ⟨?_, ?_⟩
  · unfold htable_print_stats
    rw [print_stats_rows_calls, stats_header_lines]
    have e : (List.range num_stats).filterMap
          (fun k => print_stats_line h (percent_full_of num_stats (1 + k)))
        = (List.range num_stats).filterMap (fun k => snapshot_row h num_stats (k + 1)) := by
      apply List.filterMap_congr
      intro k hk
      have hk2 := List.mem_range.1 hk
      rw [Nat.add_comm 1 k]
      exact print_stats_line_spec h num_stats (k + 1) (by omega) (by omega) hcap
    rw [e]
    rfl
  · intro i _ hi
    have hp := percent_le_hundred num_stats i hi
    have hprod : h.capacity * (100 * i / num_stats) ≤ 2147483647 := by nlinarith
    have e1 := percent_full_exact num_stats i (by omega)
    have e3 := print_stats_line_spec h num_stats i hi (by omega) hcap
    refine ⟨e1, by rw [e1]; exact current_entries_exact h _ hprod, e3, ?_⟩
    rw [e3]
    unfold snapshot_row
    dsimp only
    by_cases hg : 0 < h.capacity * (100 * i / num_stats) / 100
        ∧ h.capacity * (100 * i / num_stats) / 100 ≤ h.num_keys
    · rw [if_pos hg]
      exact ⟨fun _ => hg, fun _ => rfl⟩
    · rw [if_neg hg]
      exact ⟨fun hh => (by cases hh), fun hh => (hg hh).elim⟩

/-- Claim C19, amended, at a concrete table: the table holding `"a"`, `"f"` and
`"k"` with collision entries 0, 1, 2, and five snapshots; the snapshots for 80
and 100 percent are skipped. -/
theorem print_stats_snapshots_witness :
    5 ≤ 21474836 ∧ sample_afk.capacity ≤ 21474836
    ∧ htable_print_stats sample_afk 5
      = [line_t.text "\nLinear Probing\n\n",
         line_t.text "Percent   Current    Percent    Average      Maximum\n",
         line_t.text " Full     Entries    At Home   Collisions   Collisions\n",
         line_t.text "------------------------------------------------------\n",
         line_t.row 20 1 100 0 0, line_t.row 40 2 50 (1 / 2) 1,
         line_t.row 60 3 (100 / 3) 1 2,
         line_t.text "------------------------------------------------------\n\n"] := by
  refine ⟨by decide, by decide, ?_⟩
  rw [(print_stats_snapshots sample_afk 5 (by decide) (by decide)).1]
  have e : List.range 5 = [0, 1, 2, 3, 4] := rfl
  rw [e]
  simp [snapshot_row, snapshot_entries, stat_at, sample_afk, List.range_succ]
  norm_num

theorem search_loop_result (h : htablerec) (str : Word) (step v : Nat)
    (hc : 0 < h.capacity) :
    ∀ fuel index c, index < h.capacity → search_loop fuel h str step index c = some v →
      v = 0 ∨ ∃ i, i < h.capacity ∧ ¬ busy h str i ∧ v = freq_at h i := by
  intro fuel
  induction fuel with
  | zero =>
    intro index c _ hs
    cases hs
  | succ fuel ih =>
    intro index c hi hs
    unfold search_loop at hs
    by_cases hb : busy h str index
    · rw [if_pos hb] at hs
      by_cases hcap : c = h.capacity
      · rw [if_pos hcap] at hs
        exact Or.inl (Option.some.inj hs).symm
      · rw [if_neg hcap] at hs
        exact ih _ (c + 1) (Nat.mod_lt _ hc) hs
    · rw [if_neg hb] at hs
      exact Or.inr ⟨index, hi, hb, (Option.some.inj hs).symm⟩

/-- Claim C20: on a reachable table of capacity at least 2, a non-zero value
returned by `htable_search` is the frequency of a slot that holds the key, hence
the stored frequency of the key; this rests on the invariant, which holds too,
that a slot is empty exactly when its frequency is 0, so that every occupied
slot has a frequency of at least 1. -/
theorem search_nonzero_is_frequency (h : htablerec) (str : Word) (v : Nat)
    (hr : Reachable h) (hc : 2 ≤ h.capacity) (hs : htable_search h str = some v)
    (hv : v ≠ 0) :
    (∃ i, i < h.capacity ∧ key_at h i = some str ∧ freq_at h i = v)
    ∧ v = stored_freq h str
    ∧ (∀ i, i < h.capacity → (key_at h i = none ↔ freq_at h i = 0))
    ∧ (∀ i, i < h.capacity → key_at h i ≠ none → 1 ≤ freq_at h i) := by
  have hinv := inv_reachable h hr
  have hocc : ∀ i, i < h.capacity → key_at h i ≠ none → 1 ≤ freq_at h i := by
    intro i hi hne
    have := (hinv.freq_zero i hi).not.1 hne
    omega
  unfold htable_search htable_step at hs
  rw [if_neg (by omega)] at hs
  dsimp only at hs
  rw [if_neg (by omega)] at hs
  dsimp only at hs
  rcases search_loop_result h str _ v hinv.cap_pos _ _ 0 (Nat.mod_lt _ hinv.cap_pos) hs
    with h0 | ⟨i, hi, hnb, hvi⟩
  · exact (hv h0).elim
  · have hk : key_at h i = some str := by
      by_contra hne
      have hnone : key_at h i = none := by
        by_contra hnn
        exact hnb ⟨hnn, hne⟩
      exact hv (by rw [hvi, (hinv.freq_zero i hi).1 hnone])
    exact ⟨⟨i, hi, hk, hvi.symm⟩, by rw [stored_freq_of_slot h hinv str i hi hk, hvi],
      hinv.freq_zero, hocc⟩

/-- Claim C20 at a concrete table: `"a"` is searched in the table holding `"a"`
and `"f"`, and 1 comes back. -/
theorem search_nonzero_is_frequency_witness :
    Reachable sample_af ∧ 2 ≤ sample_af.capacity ∧ htable_search sample_af [97] = some 1
    ∧ (1 : Nat) ≠ 0
    ∧ (∃ i, i < sample_af.capacity ∧ key_at sample_af i = some [97] ∧ freq_at sample_af i = 1)
    ∧ 1 = stored_freq sample_af [97] :=
  have w := search_nonzero_is_frequency sample_af [97] 1 sample_af_reachable (by decide)
    (by decide) (by decide)
  ⟨sample_af_reachable, by decide, by decide, by decide, w.1, w.2.1⟩

end HTable
